import Mathlib

set_option maxHeartbeats 1000000

/- A shallow embedding of the jsinq Enumerable core
   (src/source/jsinq-enumerable.js).  Sequences are modelled as Lean
   lists, enumerators as explicit state machines exposing
   moveNext / current / reset, and JavaScript exceptions as an error
   type threaded through Except. -/

/-- Exceptions and thrown values appearing in the source. -/
inductive JsErr : Type
  | invalidOperation       -- InvalidOperationException
  | argumentOutOfRange     -- ArgumentOutOfRangeException
  | thrownValue            -- the bare value thrown by Hash.get on a missing key
  | typeError              -- a native TypeError (never reached in the proved runs)
  | userError (code : Nat) -- an arbitrary failure raised inside a user callback
deriving DecidableEq

deriving instance DecidableEq for Except

/-- JavaScript values as used for hash keys and elements.  Numbers are
    modelled as integers; an object is identified by its reference id. -/
inductive JSVal : Type
  | undef
  | null
  | bool (b : Bool)
  | num (n : Int)
  | str (s : String)
  | obj (id : Nat)
deriving DecidableEq

/-- The typeof operator on the modelled values. -/
def jsTypeof : JSVal → String
  | .undef => "undefined"
  | .null => "object"
  | .bool _ => "boolean"
  | .num _ => "number"
  | .str _ => "string"
  | .obj _ => "object"

/-- String coercion, as applied when a value indexes a JavaScript object. -/
def jsToString : JSVal → String
  | .undef => "undefined"
  | .null => "null"
  | .bool b => if b then "true" else "false"
  | .num n => toString n
  | .str s => s
  | .obj _ => "[object Object]"

/-- Digit run of the string-to-number coercion, structurally recursive
    so that concrete instances evaluate. -/
def jsDigitsToNat : List Char → Nat → Option Nat
  | [], acc => some acc
  | c :: cs, acc =>
    if c.isDigit then jsDigitsToNat cs (acc * 10 + (c.toNat - 48))
    else none

/-- The string case of ToNumber restricted to optionally-negated decimal
    integer numerals; none stands for NaN. -/
def jsStrToInt (str : String) : Option Int :=
  match str.data with
  | [] => none
  | '-' :: ds =>
    match ds with
    | [] => none
    | _ :: _ => (jsDigitsToNat ds 0).map (fun n => -(n : Int))
  | ds => (jsDigitsToNat ds 0).map (fun n => (n : Int))

/-- ToNumber on primitives; none stands for NaN. -/
def jsToNumber : JSVal → Option Int
  | .bool b => some (if b then 1 else 0)
  | .num n => some n
  | .str s => jsStrToInt s
  | _ => none

/-- JavaScript loose equality a == b on the modelled values (this is what
    the default EqualityComparer.equals does).  Objects compare by
    reference; the ToPrimitive coercion of plain objects against
    primitives is not modelled (such comparisons yield false here). -/
def looseEq : JSVal → JSVal → Bool
  | .undef, .undef => true
  | .undef, .null => true
  | .null, .undef => true
  | .null, .null => true
  | .bool a, .bool b => a == b
  | .num a, .num b => a == b
  | .str a, .str b => a == b
  | .obj a, .obj b => a == b
  | .num a, .str s =>
    match jsToNumber (.str s) with
    | some m => a == m
    | none => false
  | .str s, .num b =>
    match jsToNumber (.str s) with
    | some m => m == b
    | none => false
  | .bool a, .num b => (if a then (1 : Int) else 0) == b
  | .num a, .bool b => a == (if b then (1 : Int) else 0)
  | .bool a, .str s =>
    match jsToNumber (.str s) with
    | some m => (if a then (1 : Int) else 0) == m
    | none => false
  | .str s, .bool b =>
    match jsToNumber (.str s) with
    | some m => m == (if b then (1 : Int) else 0)
    | none => false
  | _, _ => false

/- ----------------------------------------------------------------------
   The source adapter enumerator: `new Enumerable(array).getEnumerator()`.
   State is the wrapped array together with the cursor `index`,
   initialised to -1.
   ---------------------------------------------------------------------- -/

structure AdapterState (α : Type) where
  value : List α
  index : Int
deriving DecidableEq

def adapterInit (l : List α) : AdapterState α := ⟨l, -1⟩

/-- moveNext of the adapter: `++index; return index < value.length;` -/
def adapterMoveNext (s : AdapterState α) : AdapterState α × Bool :=
  (⟨s.value, s.index + 1⟩, decide (s.index + 1 < (s.value.length : Int)))

/-- current of the adapter: throws InvalidOperationException when the
    cursor is out of the valid range, otherwise returns `value[index]`. -/
def adapterCurrent (s : AdapterState α) : Except JsErr α :=
  if 0 ≤ s.index ∧ s.index < (s.value.length : Int) then
    match s.value[s.index.toNat]? with
    | some v => .ok v
    | none => .error .invalidOperation
  else .error .invalidOperation

/-- reset of the adapter: `index = -1;` -/
def adapterReset (s : AdapterState α) : AdapterState α := ⟨s.value, -1⟩

theorem adapterCurrent_at (l : List α) (j : Nat) (h : j < l.length) :
    adapterCurrent (⟨l, (j : Int)⟩ : AdapterState α) = .ok (l.get ⟨j, h⟩) := by
  unfold adapterCurrent
  have hcond : (0 : Int) ≤ (j : Int) ∧ (j : Int) < (l.length : Int) := by
    constructor
    · exact_mod_cast Nat.zero_le j
    · exact_mod_cast h
  rw [if_pos hcond]
  simp only [Int.toNat_natCast]
  rw [List.getElem?_eq_getElem h]
  simp [List.get_eq_getElem]

/- ----------------------------------------------------------------------
   Draining an enumerator: the loop inside `toArray`, i.e. repeatedly
   calling moveNext and collecting current() until moveNext yields false.
   `fuel` bounds the number of moveNext calls; every use below passes
   enough fuel for the enumerator at hand to run to exhaustion.
   ---------------------------------------------------------------------- -/

def drain (mn : σ → σ × Bool) (cur : σ → Except JsErr ρ) : Nat → σ → List ρ × σ
  | 0, s => ([], s)
  | n + 1, s =>
    if (mn s).2 then
      match cur (mn s).1 with
      | .ok v => (v :: (drain mn cur n (mn s).1).1, (drain mn cur n (mn s).1).2)
      | .error _ => ([], (mn s).1)
    else ([], (mn s).1)

/-- drain preserves any invariant that each moveNext step preserves. -/
theorem drain_preserves (mn : σ → σ × Bool) (cur : σ → Except JsErr ρ)
    (P : σ → Prop) (hstep : ∀ s, P s → P (mn s).1) :
    ∀ n s, P s → P (drain mn cur n s).2 := by
  intro n
  induction n with
  | zero => intro s hs; exact hs
  | succ n ih =>
    intro s hs
    simp only [drain]
    by_cases hb : (mn s).2
    · simp only [hb, if_true]
      cases hc : cur (mn s).1 with
      | ok v => simp only [hc]; exact ih _ (hstep s hs)
      | error e => simp only [hc]; exact hstep s hs
    · simp only [hb, if_false]
      exact hstep s hs

/-- Draining the source adapter from cursor position `(j : Int) - 1`
    yields the elements from offset `j` on, and leaves the cursor at the
    array length. -/
theorem adapterDrain (l : List α) :
    ∀ (n j : Nat), j ≤ l.length → l.length - j + 1 ≤ n →
      drain adapterMoveNext adapterCurrent n (⟨l, (j : Int) - 1⟩ : AdapterState α) =
        (l.drop j, ⟨l, (l.length : Int)⟩) := by
  intro n
  induction n with
  | zero => intro j hj hn; omega
  | succ n ih =>
    intro j hj hn
    simp only [drain, adapterMoveNext]
    have hstep : ((j : Int) - 1 + 1) = (j : Int) := by ring
    simp only [hstep]
    by_cases hlt : j < l.length
    · have hb : decide ((j : Int) < (l.length : Int)) = true := by
        simp only [decide_eq_true_eq]
        exact_mod_cast hlt
      simp only [hb, if_true, adapterCurrent_at l j hlt]
      have hrec : (⟨l, (j : Int)⟩ : AdapterState α) = ⟨l, ((j + 1 : Nat) : Int) - 1⟩ := by
        congr 1
        push_cast
        ring
      rw [hrec, ih (j + 1) (by omega) (by omega)]
      simp only [Prod.mk.injEq]
      exact ⟨List.getElem_cons_drop l j hlt, trivial⟩
    · have hje : j = l.length := by omega
      have hb : decide ((j : Int) < (l.length : Int)) = false := by
        simp only [decide_eq_false_iff_not]
        intro hcontra
        exact hlt (by exact_mod_cast hcontra)
      simp only [hb, if_false]
      subst hje
      simp [List.drop_length]

/- ----------------------------------------------------------------------
   sequenceEqual (claim C10).  Mirrors the loop
     while (first.moveNext() && second.moveNext()) {
       if (!comparer.equals(first.current(), second.current())) return false;
     }
     return true;
   over two adapter enumerators; the `this == second` reference-identity
   shortcut at the top of the method only fires when both arguments are
   the same object and does not affect the modelled result.
   ---------------------------------------------------------------------- -/

def jsSequenceEqual (eq : α → α → Bool) : List α → List α → Bool
  | x :: xs, y :: ys => if eq x y then jsSequenceEqual eq xs ys else false
  | _, _ => true

/-- C10: sequenceEqual returns true whenever the pairwise elements agree
    up to the exhaustion of either sequence; in particular it returns
    true when one sequence is a strict prefix of the other, e.g. [1]
    versus [1,2] under the default comparer, because the loop stops as
    soon as either enumerator is exhausted and the length difference is
    never checked. -/
theorem c10_sequenceEqual_stops_at_shorter :
    (∀ (α : Type) (eq : α → α → Bool) (A B : List α),
        ((A.zip B).all fun p => eq p.1 p.2) = true →
        jsSequenceEqual eq A B = true) ∧
    jsSequenceEqual looseEq [JSVal.num 1] [JSVal.num 1, JSVal.num 2] = true ∧
    jsSequenceEqual looseEq [JSVal.num 1, JSVal.num 2] [JSVal.num 1] = true := by
  refine ⟨?_, by decide, by decide⟩
  intro α eq A
  induction A with
  | nil => intro B h; cases B <;> rfl
  | cons x xs ih =>
    intro B h
    cases B with
    | nil => rfl
    | cons y ys =>
      simp only [List.zip_cons_cons, List.all_cons, Bool.and_eq_true] at h
      simp only [jsSequenceEqual, h.1, if_true]
      exact ih ys h.2

theorem c10_witness :
    ((([JSVal.num 1].zip [JSVal.num 1, JSVal.num 2]).all
        fun p => looseEq p.1 p.2) = true) ∧
    jsSequenceEqual looseEq [JSVal.num 1] [JSVal.num 1, JSVal.num 2] = true :=
  ⟨by decide,
    c10_sequenceEqual_stops_at_shorter.1 JSVal looseEq
      [JSVal.num 1] [JSVal.num 1, JSVal.num 2] (by decide)⟩

/- ----------------------------------------------------------------------
   takeWhile (claim C8).  The enumerator wraps a parent enumerator
   (modelled by an arbitrary state machine over σ) and keeps
     isOperational : the sticky open/closed flag (starts true)
     index         : the running element index (starts 0)
   moveNext:
     if (isOperational) {
       isOperational = enumerator.moveNext() &&
                       predicate(enumerator.current(), index++);
     }
     return isOperational;
   The parent's current() is modelled as a total function: after a
   successful parent moveNext it returns the current element.
   ---------------------------------------------------------------------- -/

structure TakeWhileState (σ : Type) where
  par : σ
  isOperational : Bool
  index : Int
deriving DecidableEq

def takeWhileInit (pinit : σ) : TakeWhileState σ := ⟨pinit, true, 0⟩

def takeWhileMoveNext (pm : σ → σ × Bool) (pc : σ → α) (pred : α → Int → Bool)
    (s : TakeWhileState σ) : TakeWhileState σ × Bool :=
  if s.isOperational then
    if (pm s.par).2 then
      (⟨(pm s.par).1, pred (pc (pm s.par).1) s.index, s.index + 1⟩,
        pred (pc (pm s.par).1) s.index)
    else (⟨(pm s.par).1, false, s.index⟩, false)
  else (s, false)

def takeWhileCurrent (pc : σ → α) (s : TakeWhileState σ) : Except JsErr α :=
  if s.isOperational then .ok (pc s.par) else .error .invalidOperation

def takeWhileReset (pr : σ → σ) (s : TakeWhileState σ) : TakeWhileState σ :=
  ⟨pr s.par, true, 0⟩

/-- Iterated moveNext: the state after k further moveNext calls. -/
def iterMoveNext (mn : σ → σ × Bool) : Nat → σ → σ
  | 0, s => s
  | n + 1, s => iterMoveNext mn n (mn s).1

theorem takeWhile_false_closes (pm : σ → σ × Bool) (pc : σ → α)
    (pred : α → Int → Bool) (s : TakeWhileState σ)
    (h : (takeWhileMoveNext pm pc pred s).2 = false) :
    ((takeWhileMoveNext pm pc pred s).1).isOperational = false := by
  unfold takeWhileMoveNext at h ⊢
  cases hop : s.isOperational with
  | false => simp [hop]
  | true =>
    simp only [hop] at h ⊢
    cases hmn : (pm s.par).2 with
    | false => simp [hmn]
    | true =>
      simp only [hmn] at h ⊢
      simp at h ⊢
      exact h

theorem takeWhile_closed_step (pm : σ → σ × Bool) (pc : σ → α)
    (pred : α → Int → Bool) (s : TakeWhileState σ)
    (h : s.isOperational = false) :
    takeWhileMoveNext pm pc pred s = (s, false) := by
  unfold takeWhileMoveNext
  simp [h]

theorem takeWhile_closed_iter (pm : σ → σ × Bool) (pc : σ → α)
    (pred : α → Int → Bool) :
    ∀ (k : Nat) (s : TakeWhileState σ), s.isOperational = false →
      iterMoveNext (takeWhileMoveNext pm pc pred) k s = s := by
  intro k
  induction k with
  | zero => intro s _; rfl
  | succ k ih =>
    intro s h
    simp only [iterMoveNext, takeWhile_closed_step pm pc pred s h]
    exact ih s h

/-- C8: once a takeWhile enumerator's moveNext has returned false, every
    subsequent moveNext call returns false — the closed state is sticky
    and never re-opens (even for predicates that would accept later
    elements) — while reset restores the open state. -/
theorem c8_takeWhile_sticky_closed (σ α : Type) (pm : σ → σ × Bool) (pc : σ → α)
    (pred : α → Int → Bool) (pr : σ → σ) (s : TakeWhileState σ)
    (hfalse : (takeWhileMoveNext pm pc pred s).2 = false) :
    (∀ k : Nat,
        (takeWhileMoveNext pm pc pred
          (iterMoveNext (takeWhileMoveNext pm pc pred) k
            (takeWhileMoveNext pm pc pred s).1)).2 = false) ∧
    (∀ t : TakeWhileState σ, (takeWhileReset pr t).isOperational = true) := by
  have hclosed := takeWhile_false_closes pm pc pred s hfalse
  constructor
  · intro k
    rw [takeWhile_closed_iter pm pc pred k _ hclosed]
    rw [takeWhile_closed_step pm pc pred _ hclosed]
  · intro t
    rfl

theorem c8_witness :
    ((takeWhileMoveNext (fun _ : Unit => ((), false)) (fun _ => (0 : Nat))
        (fun _ _ => true) (takeWhileInit ())).2 = false) ∧
    (takeWhileMoveNext (fun _ : Unit => ((), false)) (fun _ => (0 : Nat))
        (fun _ _ => true)
        (iterMoveNext
          (takeWhileMoveNext (fun _ : Unit => ((), false)) (fun _ => (0 : Nat))
            (fun _ _ => true)) 2
          (takeWhileMoveNext (fun _ : Unit => ((), false)) (fun _ => (0 : Nat))
            (fun _ _ => true) (takeWhileInit ())).1)).2 = false :=
  ⟨by decide,
    (c8_takeWhile_sticky_closed Unit Nat (fun _ => ((), false)) (fun _ => 0)
      (fun _ _ => true) id (takeWhileInit ()) (by decide)).1 2⟩

/- ----------------------------------------------------------------------
   select (claim C9).  The enumerator wraps a parent enumerator and keeps
   a running index (starts -1):
     moveNext: ++index; return itemEnumerator.moveNext();
     current:  selector(itemEnumerator.current(), index)
     reset:    itemEnumerator.reset(); index = -1;
   A failure from the parent's current() propagates through the selector
   application.
   ---------------------------------------------------------------------- -/

structure SelectState (σ : Type) where
  par : σ
  index : Int
deriving DecidableEq

def selectInit (pinit : σ) : SelectState σ := ⟨pinit, -1⟩

def selectMoveNext (pm : σ → σ × Bool) (s : SelectState σ) : SelectState σ × Bool :=
  (⟨(pm s.par).1, s.index + 1⟩, (pm s.par).2)

def selectCurrent (pc : σ → Except JsErr α) (sel : α → Int → β)
    (s : SelectState σ) : Except JsErr β :=
  (pc s.par).map fun x => sel x s.index

def selectReset (pr : σ → σ) (s : SelectState σ) : SelectState σ := ⟨pr s.par, -1⟩

theorem select_select_drain (σ α β γ : Type) (pm : σ → σ × Bool)
    (pc : σ → Except JsErr α) (f : α → β) (g : β → γ) :
    ∀ (n : Nat) (s2 : SelectState (SelectState σ)) (s1 : SelectState σ),
      s2.par.par = s1.par →
      (drain (selectMoveNext (selectMoveNext pm))
        (selectCurrent (selectCurrent pc fun x _ => f x) fun y _ => g y)
        n s2).1 =
      (drain (selectMoveNext pm) (selectCurrent pc fun x _ => g (f x)) n s1).1 := by
  intro n
  induction n with
  | zero => intro s2 s1 h; rfl
  | succ n ih =>
    intro s2 s1 h
    simp only [drain, selectMoveNext, selectCurrent, h]
    cases hpc : pc (pm s1.par).1 with
    | ok v =>
      simp only [Except.map_ok, Except.map]
      have hrel : (⟨⟨(pm s1.par).1, s2.par.index + 1⟩, s2.index + 1⟩ :
          SelectState (SelectState σ)).par.par =
          (⟨(pm s1.par).1, s1.index + 1⟩ : SelectState σ).par := rfl
      rw [ih _ _ hrel]
      by_cases hb : (pm s1.par).2 <;> simp [hb]
    | error e =>
      simp [Except.map]

/-- C9: select(f) chained with select(g) is observationally equivalent to
    the single operator select(x => g(f(x))) for unary selectors f and g:
    corresponding states produce the same moveNext results, the same
    current() values (and the same failures), correspond again after
    reset, and the drained output lists (toArray) coincide for every
    amount of fuel. -/
theorem c9_select_select_fusion (σ α β γ : Type) (pm : σ → σ × Bool)
    (pc : σ → Except JsErr α) (pr : σ → σ) (f : α → β) (g : β → γ) :
    (∀ p0 : σ, (selectInit (selectInit p0)).par.par = (selectInit p0).par) ∧
    (∀ (s2 : SelectState (SelectState σ)) (s1 : SelectState σ),
        s2.par.par = s1.par →
        (selectMoveNext (selectMoveNext pm) s2).2 = (selectMoveNext pm s1).2 ∧
        ((selectMoveNext (selectMoveNext pm) s2).1).par.par =
          ((selectMoveNext pm s1).1).par) ∧
    (∀ (s2 : SelectState (SelectState σ)) (s1 : SelectState σ),
        s2.par.par = s1.par →
        selectCurrent (selectCurrent pc fun x _ => f x) (fun y _ => g y) s2 =
          selectCurrent pc (fun x _ => g (f x)) s1) ∧
    (∀ (s2 : SelectState (SelectState σ)) (s1 : SelectState σ),
        s2.par.par = s1.par →
        ((selectReset (selectReset pr) s2).par.par = (selectReset pr s1).par)) ∧
    (∀ (n : Nat) (p0 : σ),
        (drain (selectMoveNext (selectMoveNext pm))
          (selectCurrent (selectCurrent pc fun x _ => f x) fun y _ => g y)
          n (selectInit (selectInit p0))).1 =
        (drain (selectMoveNext pm) (selectCurrent pc fun x _ => g (f x))
          n (selectInit p0)).1) := by
  refine ⟨fun p0 => rfl, ?_, ?_, ?_, ?_⟩
  · intro s2 s1 h
    constructor
    · simp only [selectMoveNext, h]
    · simp only [selectMoveNext, h]
  · intro s2 s1 h
    simp only [selectCurrent, h]
    cases hpc : pc s1.par with
    | ok v => simp [Except.map]
    | error e => simp [Except.map]
  · intro s2 s1 h
    simp only [selectReset, h]
  · intro n p0
    exact select_select_drain σ α β γ pm pc f g n _ _ rfl

theorem c9_witness :
    ((⟨⟨adapterInit [1, 2], 0⟩, 0⟩ :
        SelectState (SelectState (AdapterState Nat))).par.par =
      (⟨adapterInit [1, 2], 0⟩ : SelectState (AdapterState Nat)).par) ∧
    selectCurrent (selectCurrent adapterCurrent fun x _ => x + 1)
        (fun y _ => y * 2)
        (⟨⟨adapterInit [1, 2], 0⟩, 0⟩ :
          SelectState (SelectState (AdapterState Nat))) =
      selectCurrent adapterCurrent (fun x _ => (x + 1) * 2)
        (⟨adapterInit [1, 2], 0⟩ : SelectState (AdapterState Nat)) :=
  ⟨rfl,
    (c9_select_select_fusion (AdapterState Nat) Nat Nat Nat adapterMoveNext
        adapterCurrent adapterReset (fun x => x + 1) (fun y => y * 2)).2.2.1
      ⟨⟨adapterInit [1, 2], 0⟩, 0⟩ ⟨adapterInit [1, 2], 0⟩ rfl⟩

/- ----------------------------------------------------------------------
   Enumerable.range (claim C4).  The enumerator keeps
     index   : cursor (starts -1)
     hasNext : whether the last moveNext succeeded (starts false)
   moveNext:
     hasNext = false;
     if (index < count - 1) { hasNext = true; ++index; return true; }
     return false;
   current: if (hasNext) return start + index; else throw InvalidOperationException;
   reset:   index = -1;                  // hasNext is NOT cleared
   (Enumerable.repeat's reset, by contrast, clears both index and hasNext.)
   ---------------------------------------------------------------------- -/

structure RangeState where
  index : Int
  hasNext : Bool
deriving DecidableEq

def rangeInit : RangeState := ⟨-1, false⟩

def rangeMoveNext (count : Int) (s : RangeState) : RangeState × Bool :=
  if s.index < count - 1 then (⟨s.index + 1, true⟩, true)
  else (⟨s.index, false⟩, false)

def rangeCurrent (start : Int) (s : RangeState) : Except JsErr Int :=
  if s.hasNext then .ok (start + s.index) else .error .invalidOperation

def rangeReset (s : RangeState) : RangeState := ⟨-1, s.hasNext⟩

/-- C4 (failing input): for Enumerable.range(5, 3), current() before any
    successful moveNext and current() after exhaustion do fail with
    InvalidOperationException, but current() after a successful moveNext
    followed by reset() — with no intervening moveNext — returns the
    value 4 (start + (-1)) instead of failing, because range's reset does
    not clear hasNext.  The source adapter errors in the same scenario. -/
theorem c4_range_current_after_reset :
    rangeCurrent 5 (rangeReset (rangeMoveNext 3 rangeInit).1) = .ok 4 ∧
    rangeCurrent 5 rangeInit = .error .invalidOperation ∧
    (rangeMoveNext 3 (⟨2, true⟩ : RangeState)).2 = false ∧
    rangeCurrent 5 (rangeMoveNext 3 (⟨2, true⟩ : RangeState)).1 =
      .error .invalidOperation ∧
    adapterCurrent (adapterReset
        (adapterMoveNext (adapterInit [5, 6, 7])).1) =
      (.error .invalidOperation : Except JsErr Int) := by
  decide

/- ----------------------------------------------------------------------
   first / last / single / elementAt and their OrDefault variants
   (claim C3).  Sequences are the materialised element lists; predicates
   are fallible (a JavaScript callback can throw), modelled as functions
   into Except JsErr Bool.  The scans mirror the `any`-based loops of the
   source: a failure raised by the predicate propagates out of first /
   last / single / elementAt, while each OrDefault variant wraps its
   underlying operation in try { ... } catch (e) { return defaultValue; }
   — the catch clause is unconditional in the source.
   ---------------------------------------------------------------------- -/

/-- elementAt: the index countdown inside `any`; an index with no
    corresponding element (including a negative index) ends the scan with
    found == false and raises ArgumentOutOfRangeException. -/
def jsElementAt (l : List α) (i : Int) : Except JsErr α :=
  if 0 ≤ i ∧ i < (l.length : Int) then
    match l[i.toNat]? with
    | some v => .ok v
    | none => .error .argumentOutOfRange
  else .error .argumentOutOfRange

def jsElementAtOrDefault (l : List α) (i : Int) (d : α) : α :=
  match jsElementAt l i with
  | .ok v => v
  | .error _ => d

/-- first(predicate): scan for the first element accepted by the
    predicate; InvalidOperationException when none matches; a predicate
    failure propagates. -/
def jsFirstPred (p : α → Except JsErr Bool) : List α → Except JsErr α
  | [] => .error .invalidOperation
  | x :: xs =>
    match p x with
    | .ok true => .ok x
    | .ok false => jsFirstPred p xs
    | .error e => .error e

/-- first() without predicate: elementAt(0) with any failure converted to
    InvalidOperationException. -/
def jsFirst (l : List α) : Except JsErr α :=
  match jsElementAt l 0 with
  | .ok v => .ok v
  | .error _ => .error .invalidOperation

def jsFirstOrDefaultPred (p : α → Except JsErr Bool) (l : List α) (d : α) : α :=
  match jsFirstPred p l with
  | .ok v => v
  | .error _ => d

def jsFirstOrDefault (l : List α) (d : α) : α :=
  match jsFirst l with
  | .ok v => v
  | .error _ => d

/-- last: one full scan remembering the latest element accepted by
    (!hasPredicate || predicate(item)). -/
def jsLastAux (p : α → Except JsErr Bool) (acc : Option α) :
    List α → Except JsErr (Option α)
  | [] => .ok acc
  | x :: xs =>
    match p x with
    | .ok true => jsLastAux p (some x) xs
    | .ok false => jsLastAux p acc xs
    | .error e => .error e

def jsLast (l : List α) (pred : Option (α → Except JsErr Bool)) :
    Except JsErr α :=
  match jsLastAux (pred.getD fun _ => .ok true) none l with
  | .ok (some v) => .ok v
  | .ok none => .error .invalidOperation
  | .error e => .error e

def jsLastOrDefault (l : List α) (pred : Option (α → Except JsErr Bool))
    (d : α) : α :=
  match jsLast l pred with
  | .ok v => v
  | .error _ => d

/-- single: empty source fails; a second successful moveNext fails before
    the predicate is consulted; with exactly one element the optional
    predicate is applied to it (and its failures propagate). -/
def jsSingle (l : List α) (pred : Option (α → Except JsErr Bool)) :
    Except JsErr α :=
  match l with
  | [] => .error .invalidOperation
  | [x] =>
    match pred with
    | none => .ok x
    | some p =>
      match p x with
      | .ok true => .ok x
      | .ok false => .error .invalidOperation
      | .error e => .error e
  | _ :: _ :: _ => .error .invalidOperation

def jsSingleOrDefault (l : List α) (pred : Option (α → Except JsErr Bool))
    (d : α) : α :=
  match jsSingle l pred with
  | .ok v => v
  | .error _ => d

/-- C3 (counterexample): on the one-element sequence [1] with a predicate
    that raises an unrelated failure, first(pred) and single(pred)
    propagate that failure, yet firstOrDefault(pred, 99) and
    singleOrDefault(pred, 99) swallow it and return the fallback 99 —
    against the claim that a failure raised inside a predicate propagates
    to the caller unmasked instead of being replaced by the fallback. -/
theorem c3_counterexample :
    jsFirstPred (fun _ : Int => .error (.userError 7)) [1] =
        .error (.userError 7) ∧
    jsFirstOrDefaultPred (fun _ : Int => .error (.userError 7)) [1] 99 = 99 ∧
    jsSingle [1] (some fun _ : Int => .error (.userError 7)) =
        .error (.userError 7) ∧
    jsSingleOrDefault [1] (some fun _ : Int => .error (.userError 7)) 99 = 99 := by
  refine ⟨rfl, rfl, rfl, rfl⟩

/-- C3 (amended): each OrDefault variant returns the underlying
    operation's value when it succeeds, and the caller-supplied fallback
    whenever the underlying operation fails for any reason whatsoever —
    the tolerated structural failure and failures raised inside
    selector/predicate callbacks alike; no failure ever propagates out of
    an OrDefault variant. -/
theorem c3_ordefault_catches_everything (α : Type) :
    (∀ (p : α → Except JsErr Bool) (l : List α) (d : α),
        (∃ v, jsFirstPred p l = .ok v ∧ jsFirstOrDefaultPred p l d = v) ∨
        (∃ e, jsFirstPred p l = .error e ∧ jsFirstOrDefaultPred p l d = d)) ∧
    (∀ (l : List α) (d : α),
        (∃ v, jsFirst l = .ok v ∧ jsFirstOrDefault l d = v) ∨
        (∃ e, jsFirst l = .error e ∧ jsFirstOrDefault l d = d)) ∧
    (∀ (l : List α) (pred : Option (α → Except JsErr Bool)) (d : α),
        (∃ v, jsSingle l pred = .ok v ∧ jsSingleOrDefault l pred d = v) ∨
        (∃ e, jsSingle l pred = .error e ∧ jsSingleOrDefault l pred d = d)) ∧
    (∀ (l : List α) (pred : Option (α → Except JsErr Bool)) (d : α),
        (∃ v, jsLast l pred = .ok v ∧ jsLastOrDefault l pred d = v) ∨
        (∃ e, jsLast l pred = .error e ∧ jsLastOrDefault l pred d = d)) ∧
    (∀ (l : List α) (i : Int) (d : α),
        (∃ v, jsElementAt l i = .ok v ∧ jsElementAtOrDefault l i d = v) ∨
        (∃ e, jsElementAt l i = .error e ∧ jsElementAtOrDefault l i d = d)) := by
  refine ⟨?_, ?_, ?_, ?_, ?_⟩
  · intro p l d
    cases h : jsFirstPred p l with
    | ok v => exact Or.inl ⟨v, rfl, by simp [jsFirstOrDefaultPred, h]⟩
    | error e => exact Or.inr ⟨e, rfl, by simp [jsFirstOrDefaultPred, h]⟩
  · intro l d
    cases h : jsFirst l with
    | ok v => exact Or.inl ⟨v, rfl, by simp [jsFirstOrDefault, h]⟩
    | error e => exact Or.inr ⟨e, rfl, by simp [jsFirstOrDefault, h]⟩
  · intro l pred d
    cases h : jsSingle l pred with
    | ok v => exact Or.inl ⟨v, rfl, by simp [jsSingleOrDefault, h]⟩
    | error e => exact Or.inr ⟨e, rfl, by simp [jsSingleOrDefault, h]⟩
  · intro l pred d
    cases h : jsLast l pred with
    | ok v => exact Or.inl ⟨v, rfl, by simp [jsLastOrDefault, h]⟩
    | error e => exact Or.inr ⟨e, rfl, by simp [jsLastOrDefault, h]⟩
  · intro l i d
    cases h : jsElementAt l i with
    | ok v => exact Or.inl ⟨v, rfl, by simp [jsElementAtOrDefault, h]⟩
    | error e => exact Or.inr ⟨e, rfl, by simp [jsElementAtOrDefault, h]⟩

/- ----------------------------------------------------------------------
   The Hash associative container (claims C7 and, below, the grouping /
   join operators).  Keys are JSVals; values have type V.  The container
   keeps
     primitiveItems : a JavaScript object, i.e. an association list from
                      property-name strings to values (reading an absent
                      property yields undefined, which the source detects
                      with `typeof value != 'undefined'`; `isUndef`
                      recognises the undefined value of V);
     complexItems   : a linear array of {key, element} records scanned
                      with the comparer (or `==` when none is supplied).
   The constructor stores the supplied comparer; `comparer == null` holds
   exactly when no comparer argument was given (an explicitly supplied
   comparer — even the default EqualityComparer instance — forces the
   linear-scan path).  `none` models the no-comparer case; `some c`
   models a supplied comparer with equals-function c.
   toArray enumerates primitiveItems with for-in (property names are
   strings; modelled in insertion order — the source itself guarantees no
   cross-bucket ordering) followed by complexItems.
   ---------------------------------------------------------------------- -/

structure HashData (V : Type) where
  primitiveItems : List (String × V)
  complexItems : List (JSVal × V)
deriving DecidableEq

namespace JsHash

def emptyHash {V : Type} : HashData V := ⟨[], []⟩

/-- The path test at the top of lookUp:
    `this.comparer == null && (typeof key == 'string' || typeof key ==
    'number' || typeof key == 'boolean' || typeof key == 'null')`.
    (typeof never yields "null", so that disjunct never fires; null keys
    take the complex path.) -/
def usesPrimitivePath (comparer : Option (JSVal → JSVal → Bool))
    (key : JSVal) : Bool :=
  comparer.isNone &&
    (jsTypeof key == "string" || jsTypeof key == "number" ||
     jsTypeof key == "boolean" || jsTypeof key == "null")

/-- The complex-path entry test:
    `(this.comparer != null && this.comparer.equals(item.key, key)) ||
     (this.comparer == null && item.key == key)`. -/
def entryMatches (comparer : Option (JSVal → JSVal → Bool))
    (entryKey key : JSVal) : Bool :=
  match comparer with
  | some c => c entryKey key
  | none => looseEq entryKey key

/-- Property read on the primitiveItems object. -/
def lookupAssoc {V : Type} : List (String × V) → String → Option V
  | [], _ => none
  | e :: es, k => if e.1 = k then some e.2 else lookupAssoc es k

/-- Property write on the primitiveItems object: overwrites in place, or
    appends a new property. -/
def updateAssoc {V : Type} : List (String × V) → String → V → List (String × V)
  | [], k, v => [(k, v)]
  | e :: es, k, v => if e.1 = k then (k, v) :: es else e :: updateAssoc es k v

/-- The complex-path loop of lookUp: scan complexItems for the first
    entry matching the key, call func on its element (func may throw and
    may return a replacement element); when no entry matches, call func
    with no argument and push a new {key, element} record if func
    returned a replacement. -/
def scanComplex {V R : Type} (comparer : Option (JSVal → JSVal → Bool))
    (key : JSVal) (func : Option V → Except JsErr (R × Option V)) :
    List (JSVal × V) → Except JsErr (R × List (JSVal × V))
  | [] =>
    match func none with
    | .error e => .error e
    | .ok (r, none) => .ok (r, [])
    | .ok (r, some nv) => .ok (r, [(key, nv)])
  | e :: es =>
    if entryMatches comparer e.1 key then
      match func (some e.2) with
      | .error er => .error er
      | .ok (r, none) => .ok (r, e :: es)
      | .ok (r, some nv) => .ok (r, (e.1, nv) :: es)
    else
      match scanComplex comparer key func es with
      | .error er => .error er
      | .ok (r, es') => .ok (r, e :: es')

/-- Hash.prototype.lookUp.  func receives the existing element (or
    nothing when the key is absent — including, on the primitive path, a
    stored element of typeof 'undefined') and returns its result plus an
    optional replacement element. -/
def lookUp {V R : Type} (comparer : Option (JSVal → JSVal → Bool))
    (isUndef : V → Bool) (h : HashData V) (key : JSVal)
    (func : Option V → Except JsErr (R × Option V)) :
    Except JsErr (R × HashData V) :=
  if usesPrimitivePath comparer key then
    match
      (match lookupAssoc h.primitiveItems (jsToString key) with
       | some v => if isUndef v then func none else func (some v)
       | none => func none) with
    | .error e => .error e
    | .ok (r, none) => .ok (r, h)
    | .ok (r, some nv) =>
      .ok (r, ⟨updateAssoc h.primitiveItems (jsToString key) nv, h.complexItems⟩)
  else
    match scanComplex comparer key func h.complexItems with
    | .error e => .error e
    | .ok (r, ci) => .ok (r, ⟨h.primitiveItems, ci⟩)

/-- The get callback: `function(value) { if (arguments.length == 0) {
    throw false; } return [value]; }`. -/
def getFunc {V : Type} : Option V → Except JsErr (V × Option V) :=
  fun v? =>
    match v? with
    | none => .error .thrownValue
    | some v => .ok (v, none)

/-- The put callback: `function(value) { if (arguments.length == 0 ||
    overwrite) { return [true, newValue]; } else { return [false]; } }`. -/
def putFunc {V : Type} (newValue : V) (overwrite : Bool) :
    Option V → Except JsErr (Bool × Option V) :=
  fun v? =>
    .ok (match v? with
      | none => (true, some newValue)
      | some _ => if overwrite then (true, some newValue) else (false, none))

/-- The bucket-append update of `hash.get(key).push(x)`. -/
def pushFunc {E : Type} (x : E) :
    Option (List E) → Except JsErr (Unit × Option (List E)) :=
  fun v? =>
    match v? with
    | some l => .ok ((), some (l ++ [x]))
    | none => .ok ((), none)

/-- Hash.prototype.keyExists: lookUp with
    `function(value) { return [arguments.length == 1]; }`.
    (That callback never throws, so the error branch is unreachable.) -/
def keyExists {V : Type} (comparer : Option (JSVal → JSVal → Bool))
    (isUndef : V → Bool) (h : HashData V) (key : JSVal) : Bool :=
  match lookUp comparer isUndef h key (fun v? => .ok (v?.isSome, none)) with
  | .ok (r, _) => r
  | .error _ => false

/-- Hash.prototype.get: lookUp with a callback that throws the bare value
    false when called with no argument. -/
def get {V : Type} (comparer : Option (JSVal → JSVal → Bool))
    (isUndef : V → Bool) (h : HashData V) (key : JSVal) : Except JsErr V :=
  match lookUp comparer isUndef h key getFunc with
  | .ok (v, _) => .ok v
  | .error e => .error e

/-- Hash.prototype.put: writes newValue when the key is absent or when
    overwrite is set; reports whether a write occurred. -/
def put {V : Type} (comparer : Option (JSVal → JSVal → Bool))
    (isUndef : V → Bool) (h : HashData V) (key : JSVal) (newValue : V)
    (overwrite : Bool) : Bool × HashData V :=
  match lookUp comparer isUndef h key (putFunc newValue overwrite) with
  | .ok (r, h') => (r, h')
  | .error _ => (false, h)

/-- Hash.prototype.toArray: all bindings; primitive properties first
    (their for-in keys are strings), then the complex records. -/
def toArray {V : Type} (h : HashData V) : List (JSVal × V) :=
  h.primitiveItems.map (fun e => (JSVal.str e.1, e.2)) ++ h.complexItems

/-- The bucket-append idiom of join/groupBy:
    `var array = hash.get(key); array.push(current);` — mutating the
    array that the hash holds through the reference get returned. -/
def pushToBucket {E : Type} (comparer : Option (JSVal → JSVal → Bool))
    (h : HashData (List E)) (key : JSVal) (x : E) : HashData (List E) :=
  match lookUp comparer (fun _ => false) h key (pushFunc x) with
  | .ok (_, h') => h'
  | .error _ => h

/-- The abstract lookup underlying keyExists/get: the stored element, or
    none when the key is absent (a primitive-path element of typeof
    'undefined' counts as absent). -/
def hashFind {V : Type} (comparer : Option (JSVal → JSVal → Bool))
    (isUndef : V → Bool) (h : HashData V) (key : JSVal) : Option V :=
  if usesPrimitivePath comparer key then
    match lookupAssoc h.primitiveItems (jsToString key) with
    | some v => if isUndef v then none else some v
    | none => none
  else
    match h.complexItems.find? (fun e => entryMatches comparer e.1 key) with
    | some e => some e.2
    | none => none

theorem scanComplex_pure {V R : Type} (comparer : Option (JSVal → JSVal → Bool))
    (key : JSVal) (fr : Option V → R) :
    ∀ l : List (JSVal × V),
      scanComplex comparer key (fun v? => .ok (fr v?, none)) l =
        .ok (fr ((l.find? fun e => entryMatches comparer e.1 key).map (·.2)), l) := by
  intro l
  induction l with
  | nil => rfl
  | cons e es ih =>
    simp only [scanComplex, List.find?]
    by_cases hm : entryMatches comparer e.1 key
    · simp [hm]
    · simp [hm, ih]

theorem scanComplex_getFunc {V : Type} (comparer : Option (JSVal → JSVal → Bool))
    (key : JSVal) :
    ∀ l : List (JSVal × V),
      scanComplex comparer key getFunc l =
        match l.find? fun e => entryMatches comparer e.1 key with
        | some e => .ok (e.2, l)
        | none => .error .thrownValue := by
  intro l
  induction l with
  | nil => rfl
  | cons e es ih =>
    by_cases hm : entryMatches comparer e.1 key
    · unfold scanComplex
      rw [if_pos hm]
      simp [getFunc, List.find?, hm]
    · unfold scanComplex
      rw [if_neg hm, ih]
      cases hfind : es.find? fun e => entryMatches comparer e.1 key with
      | some e' => simp [getFunc, List.find?, hm, hfind]
      | none => simp [getFunc, List.find?, hm, hfind]

/-- keyExists is the domain test of hashFind. -/
theorem keyExists_eq_hashFind {V : Type} (comparer : Option (JSVal → JSVal → Bool))
    (isUndef : V → Bool) (h : HashData V) (key : JSVal) :
    keyExists comparer isUndef h key = (hashFind comparer isUndef h key).isSome := by
  unfold keyExists lookUp hashFind
  by_cases hp : usesPrimitivePath comparer key
  · simp only [hp, if_true]
    cases hl : lookupAssoc h.primitiveItems (jsToString key) with
    | some v =>
      by_cases hu : isUndef v
      · simp [hu]
      · simp [hu]
    | none => simp
  · simp only [hp, Bool.false_eq_true, if_false,
      scanComplex_pure comparer key (fun v? => v?.isSome) h.complexItems]
    cases hfind : h.complexItems.find? fun e => entryMatches comparer e.1 key with
    | some e => simp [hfind]
    | none => simp [hfind]

/-- get succeeds with the stored element exactly where hashFind finds
    one, and otherwise raises the not-found signal (the thrown false). -/
theorem get_eq_hashFind {V : Type} (comparer : Option (JSVal → JSVal → Bool))
    (isUndef : V → Bool) (h : HashData V) (key : JSVal) :
    get comparer isUndef h key =
      match hashFind comparer isUndef h key with
      | some v => .ok v
      | none => .error .thrownValue := by
  unfold get lookUp hashFind
  by_cases hp : usesPrimitivePath comparer key
  · simp only [hp, if_true]
    cases hl : lookupAssoc h.primitiveItems (jsToString key) with
    | some v =>
      by_cases hu : isUndef v
      · simp [hu, getFunc]
      · simp [hu, getFunc]
    | none => simp [getFunc]
  · simp only [hp, Bool.false_eq_true, if_false,
      scanComplex_getFunc comparer key h.complexItems]
    cases hfind : h.complexItems.find? fun e => entryMatches comparer e.1 key with
    | some e => simp [hfind]
    | none => simp [hfind]

theorem lookupAssoc_update_self {V : Type} :
    ∀ (l : List (String × V)) (k : String) (v : V),
      lookupAssoc (updateAssoc l k v) k = some v := by
  intro l
  induction l with
  | nil => intro k v; simp [updateAssoc, lookupAssoc]
  | cons e es ih =>
    intro k v
    by_cases he : e.1 = k
    · simp [updateAssoc, lookupAssoc, he]
    · simp [updateAssoc, lookupAssoc, he, ih]

theorem lookupAssoc_update_other {V : Type} :
    ∀ (l : List (String × V)) (k k' : String) (v : V), k' ≠ k →
      lookupAssoc (updateAssoc l k v) k' = lookupAssoc l k' := by
  intro l
  induction l with
  | nil =>
    intro k k' v hne
    simp [updateAssoc, lookupAssoc, Ne.symm hne]
  | cons e es ih =>
    intro k k' v hne
    by_cases he : e.1 = k
    · subst he
      have hne2 : ¬ e.1 = k' := fun hh => hne hh.symm
      simp [updateAssoc, lookupAssoc, hne2]
    · by_cases he' : e.1 = k'
      · simp [updateAssoc, lookupAssoc, he, he', hne]
      · simp [updateAssoc, lookupAssoc, he, he', ih k k' v hne]

/-- scanComplex on a list with no matching entry, for a callback that
    writes a fresh element: it appends the new {key, element} record. -/
theorem scanComplex_write_nomatch {V R : Type}
    (comparer : Option (JSVal → JSVal → Bool)) (key : JSVal)
    (func : Option V → Except JsErr (R × Option V)) (r : R) (v : V)
    (hfn : func none = .ok (r, some v)) :
    ∀ l : List (JSVal × V),
      (∀ e ∈ l, entryMatches comparer e.1 key = false) →
      scanComplex comparer key func l = .ok (r, l ++ [(key, v)]) := by
  intro l
  induction l with
  | nil => intro _; simp [scanComplex, hfn]
  | cons e es ih =>
    intro h0
    have he : entryMatches comparer e.1 key = false := h0 e (by simp)
    have hrest : ∀ e' ∈ es, entryMatches comparer e'.1 key = false :=
      fun e' hx => h0 e' (by simp [hx])
    simp [scanComplex, he, ih hrest]

/-- put on an absent key (with overwrite unset) reports a write and makes
    the new element visible to hashFind — except that on the primitive
    path an element of typeof 'undefined' remains invisible. -/
theorem hashFind_put_absent {V : Type}
    (comparer : Option (JSVal → JSVal → Bool)) (isUndef : V → Bool)
    (h : HashData V) (key : JSVal) (v : V)
    (habs : hashFind comparer isUndef h key = none)
    (hrefl : usesPrimitivePath comparer key = false →
      entryMatches comparer key key = true) :
    (put comparer isUndef h key v false).1 = true ∧
    hashFind comparer isUndef (put comparer isUndef h key v false).2 key =
      (if usesPrimitivePath comparer key = true ∧ isUndef v = true then none
       else some v) := by
  by_cases hp : usesPrimitivePath comparer key
  · unfold hashFind at habs
    rw [if_pos hp] at habs
    unfold put putFunc lookUp
    rw [if_pos hp]
    have hfound : ∀ hnew : HashData V,
        hashFind comparer isUndef
          (⟨updateAssoc h.primitiveItems (jsToString key) v,
            h.complexItems⟩ : HashData V) key =
          (if usesPrimitivePath comparer key = true ∧ isUndef v = true then none
           else some v) := by
      intro _
      unfold hashFind
      rw [if_pos hp, lookupAssoc_update_self]
      by_cases huv : isUndef v
      · simp [huv, hp]
      · simp [huv, hp]
    cases hl : lookupAssoc h.primitiveItems (jsToString key) with
    | some v0 =>
      rw [hl] at habs
      by_cases hu : isUndef v0
      · simp only [hu, ↓reduceIte]
        exact ⟨trivial, hfound h⟩
      · simp [hu] at habs
    | none =>
      exact ⟨rfl, hfound h⟩
  · have hp' : usesPrimitivePath comparer key = false := by
      simpa using hp
    unfold hashFind at habs
    rw [if_neg (by simp [hp'])] at habs
    have hnone : h.complexItems.find?
        (fun e => entryMatches comparer e.1 key) = none := by
      cases hfind : h.complexItems.find? fun e => entryMatches comparer e.1 key with
      | some e => rw [hfind] at habs; simp at habs
      | none => rfl
    have hall : ∀ e ∈ h.complexItems, entryMatches comparer e.1 key = false := by
      intro e he
      have := List.find?_eq_none.mp hnone e he
      simpa using this
    unfold put putFunc lookUp
    rw [if_neg (by simp [hp'])]
    rw [scanComplex_write_nomatch comparer key _ true v rfl h.complexItems hall]
    refine ⟨rfl, ?_⟩
    unfold hashFind
    rw [if_neg (by simp [hp'])]
    rw [List.find?_append, hnone]
    have hm : entryMatches comparer key key = true := hrefl hp'
    simp [List.find?, hm, hp']

end JsHash

/-- `typeof v == 'undefined'` on a stored element. -/
def jsIsUndef (v : JSVal) : Bool := jsTypeof v == "undefined"

theorem looseEq_refl_of_complex (k : JSVal)
    (h : JsHash.usesPrimitivePath none k = false) : looseEq k k = true := by
  cases k with
  | undef => rfl
  | null => rfl
  | obj i => simp [looseEq]
  | bool b => simp [JsHash.usesPrimitivePath, jsTypeof] at h
  | num n => simp [JsHash.usesPrimitivePath, jsTypeof] at h
  | str s => simp [JsHash.usesPrimitivePath, jsTypeof] at h

/-- C7 (counterexample): after put(1, undefined) on a fresh Hash with the
    default comparer, the binding has been written into primitiveItems,
    yet keyExists(1) returns false and get(1) raises the not-found
    signal — a stored value of undefined is conflated with absence,
    contradicting the claim for the value undefined. -/
theorem c7_counterexample :
    (JsHash.put none jsIsUndef JsHash.emptyHash (JSVal.num 1)
        JSVal.undef false).2 =
      (⟨[("1", JSVal.undef)], []⟩ : HashData JSVal) ∧
    JsHash.keyExists none jsIsUndef
        (JsHash.put none jsIsUndef JsHash.emptyHash (JSVal.num 1)
          JSVal.undef false).2 (JSVal.num 1) = false ∧
    JsHash.get none jsIsUndef
        (JsHash.put none jsIsUndef JsHash.emptyHash (JSVal.num 1)
          JSVal.undef false).2 (JSVal.num 1) = .error .thrownValue := by
  decide

/-- C7 (amended): with the default comparer, get raises its not-found
    signal exactly when keyExists is false; and after putting a value v
    under an absent key k, the binding is observable (keyExists true, get
    returns v) for every v — including the falsy values false, 0, '' and
    null, and including undefined when k takes the complex path — except
    that a value of typeof 'undefined' stored under a primitive-path key
    is conflated with absence (keyExists false, get raises not-found). -/
theorem c7_hash_distinguishes_falsy (h : HashData JSVal) (k v : JSVal) :
    (JsHash.keyExists none jsIsUndef h k = false ↔
      JsHash.get none jsIsUndef h k = .error .thrownValue) ∧
    (JsHash.keyExists none jsIsUndef h k = false →
      (¬(JsHash.usesPrimitivePath none k = true ∧ v = .undef) →
        JsHash.keyExists none jsIsUndef
            (JsHash.put none jsIsUndef h k v false).2 k = true ∧
        JsHash.get none jsIsUndef
            (JsHash.put none jsIsUndef h k v false).2 k = .ok v) ∧
      ((JsHash.usesPrimitivePath none k = true ∧ v = .undef) →
        JsHash.keyExists none jsIsUndef
            (JsHash.put none jsIsUndef h k v false).2 k = false ∧
        JsHash.get none jsIsUndef
            (JsHash.put none jsIsUndef h k v false).2 k =
          .error .thrownValue)) := by
  have hku : ∀ w : JSVal, jsIsUndef w = true ↔ w = .undef := by
    intro w
    cases w <;> simp [jsIsUndef, jsTypeof]
  constructor
  · rw [JsHash.keyExists_eq_hashFind, JsHash.get_eq_hashFind]
    cases hf : JsHash.hashFind none jsIsUndef h k with
    | some w => simp
    | none => simp
  · intro hke
    have habs : JsHash.hashFind none jsIsUndef h k = none := by
      rw [JsHash.keyExists_eq_hashFind] at hke
      cases hf : JsHash.hashFind none jsIsUndef h k with
      | some w => rw [hf] at hke; simp at hke
      | none => rfl
    have hrefl : JsHash.usesPrimitivePath none k = false →
        JsHash.entryMatches none k k = true := by
      intro hpf
      unfold JsHash.entryMatches
      exact looseEq_refl_of_complex k hpf
    have hput := JsHash.hashFind_put_absent none jsIsUndef h k v habs hrefl
    constructor
    · intro hnot
      have hcond : ¬(JsHash.usesPrimitivePath none k = true ∧ jsIsUndef v = true) := by
        intro hc
        exact hnot ⟨hc.1, (hku v).mp hc.2⟩
      rw [JsHash.keyExists_eq_hashFind, JsHash.get_eq_hashFind, hput.2,
        if_neg hcond]
      exact ⟨rfl, rfl⟩
    · intro hyes
      have hcond : JsHash.usesPrimitivePath none k = true ∧ jsIsUndef v = true :=
        ⟨hyes.1, (hku v).mpr hyes.2⟩
      rw [JsHash.keyExists_eq_hashFind, JsHash.get_eq_hashFind, hput.2,
        if_pos hcond]
      exact ⟨rfl, rfl⟩

theorem c7_witness :
    JsHash.keyExists none jsIsUndef JsHash.emptyHash (JSVal.num 1) = false ∧
    JsHash.keyExists none jsIsUndef
        (JsHash.put none jsIsUndef JsHash.emptyHash (JSVal.num 1)
          (JSVal.bool false) false).2 (JSVal.num 1) = true ∧
    JsHash.get none jsIsUndef
        (JsHash.put none jsIsUndef JsHash.emptyHash (JSVal.num 1)
          (JSVal.bool false) false).2 (JSVal.num 1) = .ok (JSVal.bool false) :=
  ⟨by decide,
    (((c7_hash_distinguishes_falsy JsHash.emptyHash (JSVal.num 1)
        (JSVal.bool false)).2 (by decide)).1 (by decide)).1,
    (((c7_hash_distinguishes_falsy JsHash.emptyHash (JSVal.num 1)
        (JSVal.bool false)).2 (by decide)).1 (by decide)).2⟩

/- ----------------------------------------------------------------------
   The ordering subsystem (claims C1 and C5).

   Comparer.getDefault().compare is `a < b ? -1 : (a > b ? 1 : 0)`.

   A chain orderBy(k1).thenBy(k2) accumulates
     selectors = [[k2, ASCENDING]].concat([[k1, ASCENDING]])
               = [[k2, 1], [k1, 1]]
   (thenBy prepends its own link and keeps the parent's links), and the
   composite comparator walks the array from the last index down to 0 —
   so the primary key k1 is evaluated first — returning
   compareResult * direction at the first non-tie and 0 when every link
   ties.

   At first traversal the enumerator materialises the ORIGINAL source
   (thenBy bypasses the intermediate sorted sequence), sorts it once with
   Array.prototype.sort under the composite comparator — sort is a
   stable comparison sort per ECMAScript 2019, modelled here by a stable
   insertion sort — and then drains an adapter over the sorted buffer.
   reset() rewinds that adapter without re-sorting.
   ---------------------------------------------------------------------- -/

def defaultCompare [LinearOrder β] (a b : β) : Int :=
  if a < b then -1 else if a > b then 1 else 0

/-- The loop `for (var i = selectors.length - 1; i >= 0; i--)`, i.e. the
    links in reverse accumulation order; each link is (keySelector,
    direction) with the default ordering comparer. -/
def compositeGo {α β : Type} [LinearOrder β] : List ((α → β) × Int) → α → α → Int
  | [], _, _ => 0
  | (sel, dir) :: rest, a, b =>
    if defaultCompare (sel a) (sel b) ≠ 0 then defaultCompare (sel a) (sel b) * dir
    else compositeGo rest a b

def compositeCompare {α β : Type} [LinearOrder β]
    (selectors : List ((α → β) × Int)) (a b : α) : Int :=
  compositeGo selectors.reverse a b

/-- Array.prototype.sort modelled as a stable insertion sort: an element
    is inserted before the first element it does not compare after. -/
def jsSortInsert (cmp : α → α → Int) (x : α) : List α → List α
  | [] => [x]
  | y :: ys => if cmp x y ≤ 0 then x :: y :: ys else y :: jsSortInsert cmp x ys

def jsSort (cmp : α → α → Int) : List α → List α
  | [] => []
  | x :: xs => jsSortInsert cmp x (jsSort cmp xs)

theorem jsSortInsert_length (cmp : α → α → Int) (x : α) :
    ∀ l, (jsSortInsert cmp x l).length = l.length + 1 := by
  intro l
  induction l with
  | nil => rfl
  | cons y ys ih =>
    by_cases hc : cmp x y ≤ 0
    · simp [jsSortInsert, hc]
    · simp [jsSortInsert, hc, ih]

theorem jsSort_length (cmp : α → α → Int) :
    ∀ l, (jsSort cmp l).length = l.length := by
  intro l
  induction l with
  | nil => rfl
  | cons x xs ih => simp [jsSort, jsSortInsert_length, ih]

theorem jsSort_congr (cmp1 cmp2 : α → α → Int)
    (h : ∀ a b, cmp1 a b = cmp2 a b) (l : List α) :
    jsSort cmp1 l = jsSort cmp2 l := by
  have he : cmp1 = cmp2 := funext fun a => funext fun b => h a b
  rw [he]

theorem jsSortInsert_filter (cmp : α → α → Int) (p : α → Bool) (x : α)
    (hx : ∀ b, p x = true → p b = true → cmp x b = 0) :
    ∀ l, (jsSortInsert cmp x l).filter p =
      if p x then x :: l.filter p else l.filter p := by
  intro l
  induction l with
  | nil =>
    by_cases hpx : p x
    · simp [jsSortInsert, List.filter, hpx]
    · simp [jsSortInsert, List.filter, hpx]
  | cons y ys ih =>
    by_cases hc : cmp x y ≤ 0
    · by_cases hpx : p x
      · simp [jsSortInsert, hc, List.filter_cons, hpx]
      · simp [jsSortInsert, hc, List.filter_cons, hpx]
    · by_cases hpx : p x
      · have hpy : p y = false := by
          cases hpy : p y with
          | false => rfl
          | true =>
            have h0 := hx y hpx hpy
            omega
        simp [jsSortInsert, hc, List.filter_cons, hpy, ih, hpx]
      · simp [jsSortInsert, hc, List.filter_cons, hpx, ih]

theorem jsSort_filter (cmp : α → α → Int) (p : α → Bool)
    (hp : ∀ a b, p a = true → p b = true → cmp a b = 0) :
    ∀ l, (jsSort cmp l).filter p = l.filter p := by
  intro l
  induction l with
  | nil => rfl
  | cons x xs ih =>
    rw [jsSort, jsSortInsert_filter cmp p x (fun b => hp x b)]
    by_cases hpx : p x
    · simp [hpx, ih, List.filter_cons]
    · simp [hpx, ih, List.filter_cons]

theorem defaultCompare_self [LinearOrder β] (a : β) : defaultCompare a a = 0 := by
  simp [defaultCompare, lt_irrefl]

/-- The selector chain accumulated by orderBy(k1).thenBy(k2):
    the thenBy link first, then the orderBy link, both ascending. -/
def orderByThenBySelectors {α β : Type} (k1 k2 : α → β) :
    List ((α → β) × Int) :=
  [(k2, 1), (k1, 1)]

/-- The sorted buffer built by lazyInitialize. -/
def orderedCompute {α β : Type} [LinearOrder β]
    (selectors : List ((α → β) × Int)) (src : List α) : List α :=
  jsSort (compositeCompare selectors) src

/- ----------------------------------------------------------------------
   The lazy-buffer enumerator shared by orderBy/thenBy, reverse and (in
   spirit) groupBy: itemEnumerator is null until the first moveNext,
   which materialises `compute` and wraps it in a source adapter;
   current() with a null itemEnumerator throws; reset() rewinds the
   adapter (keeping its buffer) and does nothing before initialisation.
   ---------------------------------------------------------------------- -/

structure LazyArrState (γ : Type) where
  e : Option (AdapterState γ)
deriving DecidableEq

def lazyArrInit : LazyArrState γ := ⟨none⟩

def lazyArrMoveNext (compute : List γ) (s : LazyArrState γ) :
    LazyArrState γ × Bool :=
  match s.e with
  | none =>
    (⟨some (adapterMoveNext (adapterInit compute)).1⟩,
      (adapterMoveNext (adapterInit compute)).2)
  | some a => (⟨some (adapterMoveNext a).1⟩, (adapterMoveNext a).2)

def lazyArrCurrent (s : LazyArrState γ) : Except JsErr γ :=
  match s.e with
  | none => .error .invalidOperation
  | some a => adapterCurrent a

def lazyArrReset (s : LazyArrState γ) : LazyArrState γ :=
  match s.e with
  | none => s
  | some a => ⟨some (adapterReset a)⟩

theorem lazyArrDrain_some (compute : List γ) :
    ∀ (n : Nat) (a : AdapterState γ),
      drain (lazyArrMoveNext compute) lazyArrCurrent n
          (⟨some a⟩ : LazyArrState γ) =
        ((drain adapterMoveNext adapterCurrent n a).1,
          ⟨some (drain adapterMoveNext adapterCurrent n a).2⟩) := by
  intro n
  induction n with
  | zero => intro a; rfl
  | succ n ih =>
    intro a
    simp only [drain]
    by_cases hb : (adapterMoveNext a).2
    · have hb' : (lazyArrMoveNext compute ⟨some a⟩).2 = true := hb
      simp only [lazyArrMoveNext, hb, hb', if_true]
      cases hc : adapterCurrent (adapterMoveNext a).1 with
      | ok v =>
        have hc' : lazyArrCurrent (⟨some (adapterMoveNext a).1⟩ : LazyArrState γ) =
            .ok v := hc
        simp only [lazyArrCurrent, hc, hc', ih]
      | error e =>
        have hc' : lazyArrCurrent (⟨some (adapterMoveNext a).1⟩ : LazyArrState γ) =
            .error e := hc
        simp only [lazyArrCurrent, hc, hc']
    · have hb0 : (adapterMoveNext a).2 = false := by simpa using hb
      have hb' : (lazyArrMoveNext compute ⟨some a⟩).2 = false := hb0
      simp only [lazyArrMoveNext, hb0, hb', Bool.false_eq_true, if_false]

theorem lazyArrDrain (compute : List γ) :
    ∀ n : Nat, compute.length + 1 ≤ n →
      drain (lazyArrMoveNext compute) lazyArrCurrent n
          (lazyArrInit : LazyArrState γ) =
        (compute, ⟨some ⟨compute, (compute.length : Int)⟩⟩) := by
  intro n hn
  cases n with
  | zero => omega
  | succ m =>
    have h0 : drain (lazyArrMoveNext compute) lazyArrCurrent (m + 1)
        (lazyArrInit : LazyArrState γ) =
        drain (lazyArrMoveNext compute) lazyArrCurrent (m + 1)
          (⟨some (adapterInit compute)⟩ : LazyArrState γ) := rfl
    rw [h0, lazyArrDrain_some compute (m + 1) (adapterInit compute)]
    have hinit : (adapterInit compute : AdapterState γ) =
        ⟨compute, ((0 : Nat) : Int) - 1⟩ := by
      unfold adapterInit
      congr 1
    rw [hinit, adapterDrain compute (m + 1) 0 (by omega) (by omega)]
    simp

/-- orderBy(k1).thenBy(k2).toArray(): drain the ordered enumerator built
    over the source with the accumulated two-link selector chain. -/
def orderByThenByToArray {α β : Type} [LinearOrder β] (src : List α)
    (k1 k2 : α → β) : List α :=
  (drain (lazyArrMoveNext (orderedCompute (orderByThenBySelectors k1 k2) src))
    lazyArrCurrent (src.length + 1) lazyArrInit).1

/-- Written from the specification sentence of claim C1: compare by k1
    ascending as primary key, k2 ascending as tiebreaker. -/
def specLexCompare {α β : Type} [LinearOrder β] (k1 k2 : α → β)
    (a b : α) : Int :=
  if defaultCompare (k1 a) (k1 b) ≠ 0 then defaultCompare (k1 a) (k1 b)
  else defaultCompare (k2 a) (k2 b)

/-- Written from the specification sentence of claim C1: one stable sort
    of the materialised source under the (k1 asc, k2 asc) comparison. -/
def specStableSortByKeys {α β : Type} [LinearOrder β] (src : List α)
    (k1 k2 : α → β) : List α :=
  jsSort (specLexCompare k1 k2) src

theorem composite_eq_lex [LinearOrder β] (k1 k2 : α → β) (a b : α) :
    compositeCompare (orderByThenBySelectors k1 k2) a b =
      specLexCompare k1 k2 a b := by
  unfold compositeCompare orderByThenBySelectors specLexCompare
  simp only [List.reverse_cons, List.reverse_nil, List.nil_append,
    List.cons_append, compositeGo]
  by_cases h1 : defaultCompare (k1 a) (k1 b) ≠ 0
  · simp [h1, mul_one]
  · simp only [h1, if_false]
    by_cases h2 : defaultCompare (k2 a) (k2 b) ≠ 0
    · simp [h2, mul_one]
    · simp only [h2, if_false]
      omega

/-- C1: the array produced by orderBy(k1).thenBy(k2).toArray() equals the
    array obtained by materialising the source and stably sorting it by
    k1 ascending as primary key and k2 ascending as tiebreaker; elements
    whose keys all compare equal retain their original relative order:
    for every key pair, the sublist of elements carrying those keys is
    the same in the output as in the source. -/
theorem c1_orderBy_thenBy_stable_sort (α β : Type) [LinearOrder β]
    (src : List α) (k1 k2 : α → β) :
    orderByThenByToArray src k1 k2 = specStableSortByKeys src k1 k2 ∧
    ∀ v1 v2 : β,
      (orderByThenByToArray src k1 k2).filter
          (fun x => decide (k1 x = v1) && decide (k2 x = v2)) =
        src.filter (fun x => decide (k1 x = v1) && decide (k2 x = v2)) := by
  have hmain : orderByThenByToArray src k1 k2 = specStableSortByKeys src k1 k2 := by
    unfold orderByThenByToArray
    have hlen : (orderedCompute (orderByThenBySelectors k1 k2) src).length + 1 ≤
        src.length + 1 := by
      unfold orderedCompute
      rw [jsSort_length]
    rw [lazyArrDrain _ _ hlen]
    unfold orderedCompute specStableSortByKeys
    exact jsSort_congr _ _ (composite_eq_lex k1 k2) src
  refine ⟨hmain, ?_⟩
  intro v1 v2
  rw [hmain]
  unfold specStableSortByKeys
  apply jsSort_filter
  intro a b ha hb
  simp only [Bool.and_eq_true, decide_eq_true_eq] at ha hb
  unfold specLexCompare
  rw [ha.1, hb.1, ha.2, hb.2, defaultCompare_self, defaultCompare_self]
  simp

/- ----------------------------------------------------------------------
   Join / group-join / group-by bucket building (claims C2, C5, C6).
   lazyInitialize drives the inner enumerator once and accumulates
   same-key elements into a bucket:
     while (secondEnumerator.moveNext()) {
       var current = secondEnumerator.current();
       var key = innerKeySelector(current);
       if (!hash.put(key, [current])) {
         var array = hash.get(key);
         array.push(current);
       }
     }
   The stored values are arrays, never of typeof 'undefined', so isUndef
   is constantly false for them.
   ---------------------------------------------------------------------- -/

/-- One iteration of the accumulation loop above. -/
def joinBuildStep {E : Type} (comparer : Option (JSVal → JSVal → Bool))
    (ik : E → JSVal) (h : HashData (List E)) (cur : E) : HashData (List E) :=
  if (JsHash.put comparer (fun _ => false) h (ik cur) [cur] false).1 then
    (JsHash.put comparer (fun _ => false) h (ik cur) [cur] false).2
  else
    JsHash.pushToBucket comparer
      (JsHash.put comparer (fun _ => false) h (ik cur) [cur] false).2 (ik cur) cur

/-- The hash over the inner sequence keyed by innerKeySelector. -/
def buildInnerHash {E : Type} (comparer : Option (JSVal → JSVal → Bool))
    (ik : E → JSVal) (inner : List E) : HashData (List E) :=
  inner.foldl (joinBuildStep comparer ik) JsHash.emptyHash

/-- The effect of `hash.get(key).push(x)` on complexItems: the first
    matching record's array gains x. -/
def bucketAppendFirst {E : Type} (comparer : Option (JSVal → JSVal → Bool))
    (key : JSVal) (x : E) : List (JSVal × List E) → List (JSVal × List E)
  | [] => []
  | e :: es =>
    if JsHash.entryMatches comparer e.1 key then (e.1, e.2 ++ [x]) :: es
    else e :: bucketAppendFirst comparer key x es

/-- Two keys collide in a NO-comparer Hash (`new Hash()`, as distinct
    without a comparer creates) exactly when: both take the primitive
    path and have the same property string, or both take the complex
    path and compare loosely equal.  (The two stores are disjoint, so a
    primitive-path key never collides with a complex-path one.)  The
    join family never builds this configuration — its hash always
    carries the default comparer — so the characterisation below is
    auxiliary analysis of the no-comparer build, not of join. -/
def jsKeyMatch (a b : JSVal) : Bool :=
  if JsHash.usesPrimitivePath none a then
    JsHash.usesPrimitivePath none b && (jsToString a == jsToString b)
  else
    !(JsHash.usesPrimitivePath none b) && looseEq a b

theorem jsKeyMatch_prim (a q : JSVal)
    (hq : JsHash.usesPrimitivePath none q = true) :
    jsKeyMatch a q =
      (JsHash.usesPrimitivePath none a && (jsToString a == jsToString q)) := by
  unfold jsKeyMatch
  by_cases ha : JsHash.usesPrimitivePath none a
  · simp [ha, hq]
  · simp [ha, hq]

theorem jsKeyMatch_complex (a q : JSVal)
    (hq : JsHash.usesPrimitivePath none q = false) :
    jsKeyMatch a q =
      (!(JsHash.usesPrimitivePath none a) && looseEq a q) := by
  unfold jsKeyMatch
  by_cases ha : JsHash.usesPrimitivePath none a
  · simp [ha, hq]
  · simp [ha, hq]

theorem looseEq_complex_symm (a b : JSVal)
    (ha : JsHash.usesPrimitivePath none a = false)
    (hb : JsHash.usesPrimitivePath none b = false) :
    looseEq a b = looseEq b a := by
  cases a <;> cases b <;>
    simp_all [JsHash.usesPrimitivePath, jsTypeof, looseEq, BEq.comm]

theorem looseEq_complex_trans (a b c : JSVal)
    (ha : JsHash.usesPrimitivePath none a = false)
    (hb : JsHash.usesPrimitivePath none b = false)
    (hc : JsHash.usesPrimitivePath none c = false)
    (h1 : looseEq a b = true) (h2 : looseEq b c = true) :
    looseEq a c = true := by
  cases a <;> cases b <;> cases c <;>
    simp_all [JsHash.usesPrimitivePath, jsTypeof, looseEq]

/-- find? only looks at members, so pointwise-equal predicates agree. -/
theorem find?_congr_mem {γ : Type} (p q : γ → Bool) :
    ∀ l : List γ, (∀ x ∈ l, p x = q x) → l.find? p = l.find? q := by
  intro l
  induction l with
  | nil => intro _; rfl
  | cons x xs ih =>
    intro hpq
    have hx := hpq x (by simp)
    simp only [List.find?, hx]
    cases hq : q x with
    | true => rfl
    | false => exact ih fun y hy => hpq y (by simp [hy])

/-- put on a primitive-path key: no-op reporting false when the property
    exists, otherwise a write of the fresh bucket. -/
theorem put_prim {E : Type} (h : HashData (List E)) (k : JSVal) (v : List E)
    (hp : JsHash.usesPrimitivePath none k = true) :
    JsHash.put none (fun _ => false) h k v false =
      (match JsHash.lookupAssoc h.primitiveItems (jsToString k) with
       | some _ => (false, h)
       | none =>
         (true, ⟨JsHash.updateAssoc h.primitiveItems (jsToString k) v,
           h.complexItems⟩)) := by
  unfold JsHash.put JsHash.lookUp
  rw [if_pos hp]
  cases hl : JsHash.lookupAssoc h.primitiveItems (jsToString k) with
  | some v0 => rfl
  | none => rfl

/-- pushToBucket on a primitive-path key: appends to the stored array. -/
theorem push_prim {E : Type} (h : HashData (List E)) (k : JSVal) (x : E)
    (hp : JsHash.usesPrimitivePath none k = true) :
    JsHash.pushToBucket none h k x =
      (match JsHash.lookupAssoc h.primitiveItems (jsToString k) with
       | some l =>
         ⟨JsHash.updateAssoc h.primitiveItems (jsToString k) (l ++ [x]),
           h.complexItems⟩
       | none => h) := by
  unfold JsHash.pushToBucket JsHash.lookUp
  rw [if_pos hp]
  cases hl : JsHash.lookupAssoc h.primitiveItems (jsToString k) with
  | some v0 => rfl
  | none => rfl

theorem scanComplex_putFunc {E : Type} (comparer : Option (JSVal → JSVal → Bool))
    (k : JSVal) (v : List E) :
    ∀ l : List (JSVal × List E),
      JsHash.scanComplex comparer k (JsHash.putFunc v false) l =
        (match l.find? (fun e => JsHash.entryMatches comparer e.1 k) with
         | some _ => .ok (false, l)
         | none => .ok (true, l ++ [(k, v)])) := by
  intro l
  induction l with
  | nil => rfl
  | cons e es ih =>
    by_cases hm : JsHash.entryMatches comparer e.1 k
    · unfold JsHash.scanComplex
      rw [if_pos hm]
      simp [JsHash.putFunc, List.find?, hm]
    · unfold JsHash.scanComplex
      rw [if_neg hm, ih]
      cases hfind : es.find? fun e => JsHash.entryMatches comparer e.1 k with
      | some e' => simp [List.find?, hm, hfind]
      | none => simp [List.find?, hm, hfind]

theorem put_complex {E : Type} (h : HashData (List E)) (k : JSVal) (v : List E)
    (hp : JsHash.usesPrimitivePath none k = false) :
    JsHash.put none (fun _ => false) h k v false =
      (match h.complexItems.find? (fun e => JsHash.entryMatches none e.1 k) with
       | some _ => (false, h)
       | none => (true, ⟨h.primitiveItems, h.complexItems ++ [(k, v)]⟩)) := by
  unfold JsHash.put JsHash.lookUp
  rw [if_neg (by simp [hp])]
  rw [scanComplex_putFunc none k v h.complexItems]
  cases hfind : h.complexItems.find? fun e => JsHash.entryMatches none e.1 k with
  | some e => rfl
  | none => rfl

theorem scanComplex_pushFunc {E : Type} (comparer : Option (JSVal → JSVal → Bool))
    (k : JSVal) (x : E) :
    ∀ l : List (JSVal × List E),
      JsHash.scanComplex comparer k (JsHash.pushFunc x) l =
        .ok ((), bucketAppendFirst comparer k x l) := by
  intro l
  induction l with
  | nil => rfl
  | cons e es ih =>
    by_cases hm : JsHash.entryMatches comparer e.1 k
    · unfold JsHash.scanComplex bucketAppendFirst
      rw [if_pos hm, if_pos hm]
      rfl
    · unfold JsHash.scanComplex bucketAppendFirst
      rw [if_neg hm, if_neg hm, ih]

/-- pushToBucket on a complex-path key: the first matching record's
    array gains x. -/
theorem push_complex {E : Type} (h : HashData (List E)) (k : JSVal) (x : E)
    (hp : JsHash.usesPrimitivePath none k = false) :
    JsHash.pushToBucket none h k x =
      ⟨h.primitiveItems, bucketAppendFirst none k x h.complexItems⟩ := by
  unfold JsHash.pushToBucket JsHash.lookUp
  rw [if_neg (by simp [hp])]
  rw [scanComplex_pushFunc none k x h.complexItems]

theorem bucketAppendFirst_map_fst {E : Type}
    (comparer : Option (JSVal → JSVal → Bool)) (k : JSVal) (x : E) :
    ∀ l : List (JSVal × List E),
      (bucketAppendFirst comparer k x l).map Prod.fst = l.map Prod.fst := by
  intro l
  induction l with
  | nil => rfl
  | cons e es ih =>
    by_cases hm : JsHash.entryMatches comparer e.1 k
    · simp [bucketAppendFirst, hm]
    · simp [bucketAppendFirst, hm, ih]

/-- A query whose match test agrees entrywise with the appended key's
    sees the extended bucket of the first matching record. -/
theorem find?_bucketAppendFirst_match {E : Type} (k q : JSVal) (x : E) :
    ∀ l : List (JSVal × List E),
      (∀ e ∈ l, looseEq e.1 q = looseEq e.1 k) →
      (bucketAppendFirst none k x l).find? (fun e => looseEq e.1 q) =
        (match l.find? (fun e => looseEq e.1 k) with
         | some e => some (e.1, e.2 ++ [x])
         | none => none) := by
  intro l
  induction l with
  | nil => intro _; rfl
  | cons e es ih =>
    intro hagree
    have he := hagree e (by simp)
    by_cases hm : looseEq e.1 k
    · have hm' : JsHash.entryMatches none e.1 k = true := hm
      have hq : looseEq e.1 q = true := by rw [he, hm]
      simp only [bucketAppendFirst, hm', if_true]
      simp [List.find?, hm, hq]
    · have hm0 : looseEq e.1 k = false := by simpa using hm
      have hm' : JsHash.entryMatches none e.1 k = false := hm0
      have hq : looseEq e.1 q = false := by rw [he, hm0]
      simp only [bucketAppendFirst, hm', Bool.false_eq_true, if_false]
      simp [List.find?, hq, hm0, ih fun e' he' => hagree e' (by simp [he'])]

/-- A query matching no record that the appended key matches is
    unaffected by the push. -/
theorem find?_bucketAppendFirst_other {E : Type} (k q : JSVal) (x : E) :
    ∀ l : List (JSVal × List E),
      (∀ e ∈ l, looseEq e.1 k = true → looseEq e.1 q = false) →
      (bucketAppendFirst none k x l).find? (fun e => looseEq e.1 q) =
        l.find? (fun e => looseEq e.1 q) := by
  intro l
  induction l with
  | nil => intro _; rfl
  | cons e es ih =>
    intro hsep
    by_cases hm : looseEq e.1 k
    · have hm' : JsHash.entryMatches none e.1 k = true := hm
      have hq0 : looseEq e.1 q = false := hsep e (by simp) hm
      simp only [bucketAppendFirst, hm', if_true]
      simp [List.find?, hq0]
    · have hm' : JsHash.entryMatches none e.1 k = false := by simpa using hm
      simp only [bucketAppendFirst, hm', Bool.false_eq_true, if_false]
      by_cases hq0 : looseEq e.1 q
      · simp [List.find?, hq0]
      · simp [List.find?, hq0,
          ih fun e' he' hk => hsep e' (by simp [he']) hk]

theorem entryMatches_none (a b : JSVal) :
    JsHash.entryMatches none a b = looseEq a b := rfl

theorem filter_eq_nil_of_any_eq_false {γ : Type} (p : γ → Bool) (l : List γ)
    (h : l.any p = false) : l.filter p = [] := by
  induction l with
  | nil => rfl
  | cons x xs ih =>
    simp only [List.any_cons, Bool.or_eq_false_iff] at h
    simp [List.filter_cons, h.1, ih h.2]

/-- looseEq on complex-path values respects classes: when k and q are
    loosely equal, matching q is the same as matching k. -/
theorem looseEq_respects_class (a k q : JSVal)
    (ha : JsHash.usesPrimitivePath none a = false)
    (hk : JsHash.usesPrimitivePath none k = false)
    (hq : JsHash.usesPrimitivePath none q = false)
    (hkq : looseEq k q = true) : looseEq a q = looseEq a k := by
  cases hak : looseEq a k with
  | true =>
    exact looseEq_complex_trans a k q ha hk hq hak hkq
  | false =>
    cases haq : looseEq a q with
    | false => rfl
    | true =>
      have hqk : looseEq q k = true := by
        rw [looseEq_complex_symm q k hq hk]
        exact hkq
      have : looseEq a k = true := looseEq_complex_trans a q k ha hq hk haq hqk
      rw [this] at hak
      exact absurd hak (by simp)

/-- The invariant carried while the inner sequence is folded into the
    hash: primitiveItems holds, per property string, the bucket of the
    already-processed primitive-keyed elements with that string;
    complexItems holds only complex-path keys; and a complex query key
    finds exactly the bucket of the already-processed elements whose key
    collides with it. -/
def InnerHashInv {E : Type} (ik : E → JSVal) (processed : List E)
    (h : HashData (List E)) : Prop :=
  (∀ s : String,
      JsHash.lookupAssoc h.primitiveItems s =
        (if processed.any (fun i =>
              JsHash.usesPrimitivePath none (ik i) && (jsToString (ik i) == s))
         then some (processed.filter fun i =>
              JsHash.usesPrimitivePath none (ik i) && (jsToString (ik i) == s))
         else none)) ∧
  (∀ e ∈ h.complexItems, JsHash.usesPrimitivePath none e.1 = false) ∧
  (∀ q : JSVal, JsHash.usesPrimitivePath none q = false →
      (h.complexItems.find? fun e => looseEq e.1 q).map (fun e => e.2) =
        (if processed.any (fun i => jsKeyMatch (ik i) q)
         then some (processed.filter fun i => jsKeyMatch (ik i) q)
         else none))

theorem innerHashInv_nil {E : Type} (ik : E → JSVal) :
    InnerHashInv ik [] JsHash.emptyHash := by
  refine ⟨?_, ?_, ?_⟩
  · intro s
    simp [JsHash.lookupAssoc, JsHash.emptyHash]
  · intro e he
    simp [JsHash.emptyHash] at he
  · intro q _
    simp [JsHash.emptyHash]

theorem innerHashInv_step_prim {E : Type} (ik : E → JSVal) (processed : List E)
    (h : HashData (List E)) (cur : E)
    (hp : JsHash.usesPrimitivePath none (ik cur) = true)
    (hinv : InnerHashInv ik processed h) :
    InnerHashInv ik (processed ++ [cur]) (joinBuildStep none ik h cur) := by
  obtain ⟨hA, hB, hD⟩ := hinv
  cases hl : JsHash.lookupAssoc h.primitiveItems (jsToString (ik cur)) with
  | none =>
    have hany : processed.any (fun i =>
        JsHash.usesPrimitivePath none (ik i) &&
          (jsToString (ik i) == jsToString (ik cur))) = false := by
      have hthis := hA (jsToString (ik cur))
      rw [hl] at hthis
      by_cases hany : processed.any (fun i =>
          JsHash.usesPrimitivePath none (ik i) &&
            (jsToString (ik i) == jsToString (ik cur)))
      · rw [if_pos hany] at hthis
        exact absurd hthis (by simp)
      · simpa using hany
    have hstep : joinBuildStep none ik h cur =
        ⟨JsHash.updateAssoc h.primitiveItems (jsToString (ik cur)) [cur],
          h.complexItems⟩ := by
      unfold joinBuildStep
      rw [put_prim h (ik cur) [cur] hp, hl]
      rfl
    rw [hstep]
    refine ⟨?_, ?_, ?_⟩
    · intro s
      by_cases hs : s = jsToString (ik cur)
      · subst hs
        rw [JsHash.lookupAssoc_update_self]
        have hcur : (JsHash.usesPrimitivePath none (ik cur) &&
            (jsToString (ik cur) == jsToString (ik cur))) = true := by
          simp [hp]
        rw [List.any_append, List.filter_append, hany,
          filter_eq_nil_of_any_eq_false _ _ hany]
        simp [List.filter_cons, hcur, hp]
      · rw [JsHash.lookupAssoc_update_other h.primitiveItems
          (jsToString (ik cur)) s [cur] hs, hA s]
        have hcur : (JsHash.usesPrimitivePath none (ik cur) &&
            (jsToString (ik cur) == s)) = false := by
          have : (jsToString (ik cur) == s) = false := by
            simp only [beq_eq_false_iff_ne]
            exact fun hh => hs hh.symm
          simp [this]
        rw [List.any_append, List.filter_append]
        simp [hcur]
    · exact hB
    · intro q hq
      have hcur : jsKeyMatch (ik cur) q = false := by
        rw [jsKeyMatch_complex _ _ hq, hp]
        rfl
      rw [hD q hq, List.any_append, List.filter_append]
      simp [hcur]
  | some bucket =>
    have hbucket : processed.any (fun i =>
          JsHash.usesPrimitivePath none (ik i) &&
            (jsToString (ik i) == jsToString (ik cur))) = true ∧
        bucket = processed.filter (fun i =>
          JsHash.usesPrimitivePath none (ik i) &&
            (jsToString (ik i) == jsToString (ik cur))) := by
      have hthis := hA (jsToString (ik cur))
      rw [hl] at hthis
      by_cases hany : processed.any (fun i =>
          JsHash.usesPrimitivePath none (ik i) &&
            (jsToString (ik i) == jsToString (ik cur)))
      · rw [if_pos hany] at hthis
        exact ⟨hany, by simpa using hthis⟩
      · rw [if_neg hany] at hthis
        exact absurd hthis (by simp)
    have hstep : joinBuildStep none ik h cur =
        ⟨JsHash.updateAssoc h.primitiveItems (jsToString (ik cur))
          (bucket ++ [cur]), h.complexItems⟩ := by
      unfold joinBuildStep
      rw [put_prim h (ik cur) [cur] hp, hl]
      simp only [Bool.false_eq_true, if_false]
      rw [push_prim h (ik cur) cur hp, hl]
    rw [hstep]
    refine ⟨?_, ?_, ?_⟩
    · intro s
      by_cases hs : s = jsToString (ik cur)
      · subst hs
        rw [JsHash.lookupAssoc_update_self]
        have hcur : (JsHash.usesPrimitivePath none (ik cur) &&
            (jsToString (ik cur) == jsToString (ik cur))) = true := by
          simp [hp]
        rw [List.any_append, List.filter_append, hbucket.1]
        simp [List.filter_cons, hcur, hbucket.2, hp]
      · rw [JsHash.lookupAssoc_update_other h.primitiveItems
          (jsToString (ik cur)) s (bucket ++ [cur]) hs, hA s]
        have hcur : (JsHash.usesPrimitivePath none (ik cur) &&
            (jsToString (ik cur) == s)) = false := by
          have : (jsToString (ik cur) == s) = false := by
            simp only [beq_eq_false_iff_ne]
            exact fun hh => hs hh.symm
          simp [this]
        rw [List.any_append, List.filter_append]
        simp [hcur]
    · exact hB
    · intro q hq
      have hcur : jsKeyMatch (ik cur) q = false := by
        rw [jsKeyMatch_complex _ _ hq, hp]
        rfl
      rw [hD q hq, List.any_append, List.filter_append]
      simp [hcur]

theorem find?_append_some {γ : Type} (p : γ → Bool) (l1 l2 : List γ) (a : γ)
    (h : l1.find? p = some a) : (l1 ++ l2).find? p = some a := by
  induction l1 with
  | nil => simp [List.find?] at h
  | cons x xs ih =>
    simp only [List.find?, List.cons_append] at h ⊢
    cases hx : p x with
    | true => simp only [hx] at h ⊢; exact h
    | false => simp only [hx] at h ⊢; exact ih h

theorem find?_append_none {γ : Type} (p : γ → Bool) (l1 l2 : List γ)
    (h : l1.find? p = none) : (l1 ++ l2).find? p = l2.find? p := by
  induction l1 with
  | nil => rfl
  | cons x xs ih =>
    simp only [List.find?, List.cons_append] at h ⊢
    cases hx : p x with
    | true => simp only [hx] at h; simp at h
    | false => simp only [hx] at h ⊢; exact ih h

theorem innerHashInv_step_complex {E : Type} (ik : E → JSVal)
    (processed : List E) (h : HashData (List E)) (cur : E)
    (hp : JsHash.usesPrimitivePath none (ik cur) = false)
    (hinv : InnerHashInv ik processed h) :
    InnerHashInv ik (processed ++ [cur]) (joinBuildStep none ik h cur) := by
  obtain ⟨hA, hB, hD⟩ := hinv
  have hfeq : (fun e : JSVal × List E =>
      JsHash.entryMatches none e.1 (ik cur)) =
      (fun e : JSVal × List E => looseEq e.1 (ik cur)) := rfl
  cases hfind : h.complexItems.find? (fun e => looseEq e.1 (ik cur)) with
  | none =>
    have hnomatch : ∀ e ∈ h.complexItems, looseEq e.1 (ik cur) = false := by
      intro e he
      have := List.find?_eq_none.mp hfind e he
      simpa using this
    have hstep : joinBuildStep none ik h cur =
        ⟨h.primitiveItems, h.complexItems ++ [(ik cur, [cur])]⟩ := by
      unfold joinBuildStep
      rw [put_complex h (ik cur) [cur] hp, hfeq, hfind]
      rfl
    rw [hstep]
    refine ⟨?_, ?_, ?_⟩
    · intro s
      rw [hA s]
      have hcur : (JsHash.usesPrimitivePath none (ik cur) &&
          (jsToString (ik cur) == s)) = false := by simp [hp]
      rw [List.any_append, List.filter_append]
      simp [hcur]
    · intro e he
      rcases List.mem_append.mp he with h1 | h2
      · exact hB e h1
      · simp only [List.mem_singleton] at h2
        rw [h2]
        exact hp
    · intro q hq
      cases hfq : h.complexItems.find? (fun e => looseEq e.1 q) with
      | some e0 =>
        have he0mem := List.mem_of_find?_eq_some hfq
        have he0q : looseEq e0.1 q = true := by
          simpa using List.find?_some hfq
        have hkq : looseEq (ik cur) q = false := by
          by_contra hkq'
          have hkq2 : looseEq (ik cur) q = true := by simpa using hkq'
          have hqk : looseEq q (ik cur) = true := by
            rw [looseEq_complex_symm q (ik cur) hq hp]
            exact hkq2
          have htrans : looseEq e0.1 (ik cur) = true :=
            looseEq_complex_trans e0.1 q (ik cur) (hB e0 he0mem) hq hp he0q hqk
          have := hnomatch e0 he0mem
          simp_all
        have hnewpred : jsKeyMatch (ik cur) q = false := by
          rw [jsKeyMatch_complex _ _ hq, hp, hkq]
          rfl
        have hold := hD q hq
        rw [hfq] at hold
        rw [find?_append_some _ _ _ _ hfq]
        rw [List.any_append, List.filter_append]
        simpa [hnewpred] using hold
      | none =>
        have hold := hD q hq
        rw [hfq] at hold
        have hanyq : processed.any (fun i => jsKeyMatch (ik i) q) = false := by
          by_cases hx : processed.any (fun i => jsKeyMatch (ik i) q)
          · rw [if_pos hx] at hold
            exact absurd hold (by simp)
          · simpa using hx
        have hnewpred : jsKeyMatch (ik cur) q = looseEq (ik cur) q := by
          rw [jsKeyMatch_complex _ _ hq, hp]
          rfl
        rw [find?_append_none _ _ _ hfq]
        rw [List.any_append, List.filter_append, hanyq,
          filter_eq_nil_of_any_eq_false _ _ hanyq]
        by_cases hkq : looseEq (ik cur) q
        · simp [List.find?, List.filter_cons, hkq, hnewpred]
        · have hkq0 : looseEq (ik cur) q = false := by simpa using hkq
          simp [List.find?, List.filter_cons, hkq0, hnewpred]
  | some e =>
    have hstep : joinBuildStep none ik h cur =
        ⟨h.primitiveItems,
          bucketAppendFirst none (ik cur) cur h.complexItems⟩ := by
      unfold joinBuildStep
      rw [put_complex h (ik cur) [cur] hp, hfeq, hfind]
      simp only [Bool.false_eq_true, if_false]
      rw [push_complex h (ik cur) cur hp]
    rw [hstep]
    refine ⟨?_, ?_, ?_⟩
    · intro s
      rw [hA s]
      have hcur : (JsHash.usesPrimitivePath none (ik cur) &&
          (jsToString (ik cur) == s)) = false := by simp [hp]
      rw [List.any_append, List.filter_append]
      simp [hcur]
    · intro e' he'
      have hmm : e'.1 ∈ (bucketAppendFirst none (ik cur) cur
          h.complexItems).map Prod.fst := List.mem_map_of_mem _ he'
      rw [bucketAppendFirst_map_fst] at hmm
      obtain ⟨y, hy, hy2⟩ := List.mem_map.mp hmm
      rw [← hy2]
      exact hB y hy
    · intro q hq
      by_cases hkq : looseEq (ik cur) q
      · have hagree : ∀ e' ∈ h.complexItems,
            looseEq e'.1 q = looseEq e'.1 (ik cur) :=
          fun e' he' => looseEq_respects_class e'.1 (ik cur) q
            (hB e' he') hp hq hkq
        rw [find?_bucketAppendFirst_match (ik cur) q cur h.complexItems hagree,
          hfind]
        have hfq : h.complexItems.find? (fun x => looseEq x.1 q) = some e := by
          rw [find?_congr_mem _ _ h.complexItems hagree]
          exact hfind
        have hold := hD q hq
        rw [hfq] at hold
        have hparts : processed.any (fun i => jsKeyMatch (ik i) q) = true ∧
            e.2 = processed.filter (fun i => jsKeyMatch (ik i) q) := by
          by_cases hx : processed.any (fun i => jsKeyMatch (ik i) q)
          · rw [if_pos hx] at hold
            exact ⟨hx, by simpa using hold⟩
          · rw [if_neg hx] at hold
            exact absurd hold (by simp)
        have hnewpred : jsKeyMatch (ik cur) q = true := by
          rw [jsKeyMatch_complex _ _ hq, hp, hkq]
          rfl
        rw [List.any_append, List.filter_append]
        simp [hparts.1, hnewpred, List.filter_cons, ← hparts.2]
      · have hkq0 : looseEq (ik cur) q = false := by simpa using hkq
        have hsep : ∀ e' ∈ h.complexItems, looseEq e'.1 (ik cur) = true →
            looseEq e'.1 q = false := by
          intro e' he' hek
          by_contra hq'
          have heq' : looseEq e'.1 q = true := by simpa using hq'
          have h1 : looseEq (ik cur) e'.1 = true := by
            rw [looseEq_complex_symm (ik cur) e'.1 hp (hB e' he')]
            exact hek
          have h2 : looseEq (ik cur) q = true :=
            looseEq_complex_trans (ik cur) e'.1 q hp (hB e' he') hq h1 heq'
          rw [h2] at hkq0
          exact absurd hkq0 (by simp)
        rw [find?_bucketAppendFirst_other (ik cur) q cur h.complexItems hsep]
        rw [hD q hq]
        have hnewpred : jsKeyMatch (ik cur) q = false := by
          rw [jsKeyMatch_complex _ _ hq, hp, hkq0]
          rfl
        rw [List.any_append, List.filter_append]
        simp [hnewpred]

theorem innerHashInv_step {E : Type} (ik : E → JSVal) (processed : List E)
    (h : HashData (List E)) (cur : E) (hinv : InnerHashInv ik processed h) :
    InnerHashInv ik (processed ++ [cur]) (joinBuildStep none ik h cur) := by
  by_cases hp : JsHash.usesPrimitivePath none (ik cur)
  · exact innerHashInv_step_prim ik processed h cur hp hinv
  · exact innerHashInv_step_complex ik processed h cur (by simpa using hp) hinv

theorem innerHashInv_fold {E : Type} (ik : E → JSVal) :
    ∀ (rest processed : List E) (h : HashData (List E)),
      InnerHashInv ik processed h →
      InnerHashInv ik (processed ++ rest)
        (rest.foldl (joinBuildStep none ik) h) := by
  intro rest
  induction rest with
  | nil =>
    intro processed h hinv
    simpa using hinv
  | cons x xs ih =>
    intro processed h hinv
    have hone := innerHashInv_step ik processed h x hinv
    have := ih (processed ++ [x]) _ hone
    simpa [List.append_assoc] using this

theorem innerHashInv_build {E : Type} (ik : E → JSVal) (inner : List E) :
    InnerHashInv ik inner (buildInnerHash none ik inner) := by
  have := innerHashInv_fold ik inner [] JsHash.emptyHash (innerHashInv_nil ik)
  simpa [buildInnerHash] using this

/-- The central characterisation: in the hash built over the inner
    sequence, a query key finds exactly the (possibly empty) bucket of
    inner elements whose key collides with it, in inner order. -/
theorem buildInnerHash_find {E : Type} (ik : E → JSVal) (inner : List E)
    (q : JSVal) :
    JsHash.hashFind none (fun _ => false) (buildInnerHash none ik inner) q =
      (if inner.any (fun i => jsKeyMatch (ik i) q)
       then some (inner.filter fun i => jsKeyMatch (ik i) q) else none) := by
  obtain ⟨hA, hB, hD⟩ := innerHashInv_build ik inner
  unfold JsHash.hashFind
  by_cases hq : JsHash.usesPrimitivePath none q
  · rw [if_pos hq, hA (jsToString q)]
    have hfun : (fun i => JsHash.usesPrimitivePath none (ik i) &&
        (jsToString (ik i) == jsToString q)) =
        (fun i => jsKeyMatch (ik i) q) := by
      funext i
      rw [jsKeyMatch_prim _ _ hq]
    rw [hfun]
    by_cases hany : inner.any (fun i => jsKeyMatch (ik i) q)
    · simp [hany]
    · simp [hany]
  · have hq0 : JsHash.usesPrimitivePath none q = false := by simpa using hq
    rw [if_neg (by simp [hq0])]
    have hold := hD q hq0
    have hfeq : (fun e : JSVal × List E => JsHash.entryMatches none e.1 q) =
        (fun e : JSVal × List E => looseEq e.1 q) := rfl
    rw [hfeq]
    cases hfq : (buildInnerHash none ik inner).complexItems.find?
        (fun e => looseEq e.1 q) with
    | some e =>
      rw [hfq] at hold
      simp only [Option.map_some'] at hold
      rw [← hold]
    | none =>
      rw [hfq] at hold
      simp only [Option.map_none'] at hold
      rw [← hold]

theorem buildInnerHash_keyExists {E : Type} (ik : E → JSVal) (inner : List E)
    (q : JSVal) :
    JsHash.keyExists none (fun _ => false) (buildInnerHash none ik inner) q =
      inner.any (fun i => jsKeyMatch (ik i) q) := by
  rw [JsHash.keyExists_eq_hashFind, buildInnerHash_find]
  by_cases hany : inner.any (fun i => jsKeyMatch (ik i) q)
  · simp [hany]
  · simp [hany]

theorem buildInnerHash_get {E : Type} (ik : E → JSVal) (inner : List E)
    (q : JSVal) (hany : inner.any (fun i => jsKeyMatch (ik i) q) = true) :
    JsHash.get none (fun _ => false) (buildInnerHash none ik inner) q =
      .ok (inner.filter fun i => jsKeyMatch (ik i) q) := by
  rw [JsHash.get_eq_hashFind, buildInnerHash_find, if_pos hany]

/- ----------------------------------------------------------------------
   The Hash as join, groupJoin and groupBy construct it (claims C2, C5,
   C6).  All of them pass EqualityComparer.getDefault(), whose equals is
   the non-strict `a == b` (looseEq).  The Hash constructor ends in an
   unconditional `this.comparer = arguments[0]`, so this hash carries
   the default comparer object: `this.comparer == null` is false, every
   key takes the complex linear-scan path, and entries are matched with
   comparer.equals, i.e. loose equality.  Because == is not transitive
   across types, buckets form sequentially: an inserted key joins the
   first existing record whose stored key it loosely equals, otherwise
   a new record is appended.
   ---------------------------------------------------------------------- -/

theorem usesPrimitivePath_some (c : JSVal → JSVal → Bool) (k : JSVal) :
    JsHash.usesPrimitivePath (some c) k = false := by
  simp [JsHash.usesPrimitivePath]

theorem hashFind_some_comparer {V : Type} (c : JSVal → JSVal → Bool)
    (isUndef : V → Bool) (h : HashData V) (k : JSVal) :
    JsHash.hashFind (some c) isUndef h k =
      (h.complexItems.find? (fun e => c e.1 k)).map (fun e => e.2) := by
  unfold JsHash.hashFind
  rw [if_neg (by simp [usesPrimitivePath_some])]
  simp only [JsHash.entryMatches]
  cases hfind : h.complexItems.find? (fun e => c e.1 k) with
  | some e => rfl
  | none => rfl

theorem put_some {E : Type} (c : JSVal → JSVal → Bool)
    (h : HashData (List E)) (k : JSVal) (v : List E) :
    JsHash.put (some c) (fun _ => false) h k v false =
      (match h.complexItems.find? (fun e => c e.1 k) with
       | some _ => (false, h)
       | none => (true, ⟨h.primitiveItems, h.complexItems ++ [(k, v)]⟩)) := by
  unfold JsHash.put JsHash.lookUp
  rw [if_neg (by simp [usesPrimitivePath_some])]
  rw [scanComplex_putFunc (some c) k v h.complexItems]
  simp only [JsHash.entryMatches]
  cases hfind : h.complexItems.find? (fun e => c e.1 k) with
  | some e => rfl
  | none => rfl

theorem push_some {E : Type} (c : JSVal → JSVal → Bool)
    (h : HashData (List E)) (k : JSVal) (x : E) :
    JsHash.pushToBucket (some c) h k x =
      ⟨h.primitiveItems, bucketAppendFirst (some c) k x h.complexItems⟩ := by
  unfold JsHash.pushToBucket JsHash.lookUp
  rw [if_neg (by simp [usesPrimitivePath_some])]
  rw [scanComplex_pushFunc (some c) k x h.complexItems]

/-- One build-loop iteration on the complexItems record list: the new
    element joins the first record whose stored key loosely matches,
    otherwise a fresh record is appended at the end. -/
def bucketsInsert {E : Type} (c : JSVal → JSVal → Bool) (k : JSVal)
    (x : E) (l : List (JSVal × List E)) : List (JSVal × List E) :=
  match l.find? (fun e => c e.1 k) with
  | some _ => bucketAppendFirst (some c) k x l
  | none => l ++ [(k, [x])]

/-- The record list the build loop leaves in complexItems. -/
def innerBuckets {E : Type} (c : JSVal → JSVal → Bool) (ik : E → JSVal)
    (l : List E) : List (JSVal × List E) :=
  l.foldl (fun bs i => bucketsInsert c (ik i) i bs) []

theorem joinBuildStep_some {E : Type} (c : JSVal → JSVal → Bool)
    (ik : E → JSVal) (h : HashData (List E)) (cur : E) :
    joinBuildStep (some c) ik h cur =
      ⟨h.primitiveItems, bucketsInsert c (ik cur) cur h.complexItems⟩ := by
  unfold joinBuildStep bucketsInsert
  rw [put_some]
  cases hfind : h.complexItems.find? (fun e => c e.1 (ik cur)) with
  | some e =>
    simp only [Bool.false_eq_true, if_false]
    rw [push_some]
  | none => rfl

theorem buildInnerHash_fold_some {E : Type} (c : JSVal → JSVal → Bool)
    (ik : E → JSVal) :
    ∀ (l : List E) (ps : List (String × List E))
      (bs : List (JSVal × List E)),
      l.foldl (joinBuildStep (some c) ik) ⟨ps, bs⟩ =
        ⟨ps, l.foldl (fun bs i => bucketsInsert c (ik i) i bs) bs⟩ := by
  intro l
  induction l with
  | nil => intro ps bs; rfl
  | cons x xs ih =>
    intro ps bs
    simp only [List.foldl_cons, joinBuildStep_some]
    exact ih ps (bucketsInsert c (ik x) x bs)

theorem buildInnerHash_some {E : Type} (c : JSVal → JSVal → Bool)
    (ik : E → JSVal) (inner : List E) :
    buildInnerHash (some c) ik inner = ⟨[], innerBuckets c ik inner⟩ := by
  unfold buildInnerHash innerBuckets JsHash.emptyHash
  exact buildInnerHash_fold_some c ik inner [] []

theorem bucketAppendFirst_nonempty {E : Type} (c : JSVal → JSVal → Bool)
    (k : JSVal) (x : E) :
    ∀ l : List (JSVal × List E), (∀ e ∈ l, e.2 ≠ []) →
      ∀ e ∈ bucketAppendFirst (some c) k x l, e.2 ≠ [] := by
  intro l
  induction l with
  | nil => intro _ e he; exact absurd he (List.not_mem_nil e)
  | cons a as ih =>
    intro hne e he
    unfold bucketAppendFirst at he
    by_cases hm : JsHash.entryMatches (some c) a.1 k
    · rw [if_pos hm] at he
      rcases List.mem_cons.mp he with rfl | he2
      · simp
      · exact hne e (List.mem_cons_of_mem a he2)
    · rw [if_neg hm] at he
      rcases List.mem_cons.mp he with rfl | he2
      · exact hne _ (List.mem_cons_self _ _)
      · exact ih (fun e2 he2 => hne e2 (List.mem_cons_of_mem a he2)) e he2

theorem bucketsInsert_nonempty {E : Type} (c : JSVal → JSVal → Bool)
    (k : JSVal) (x : E) (l : List (JSVal × List E))
    (hne : ∀ e ∈ l, e.2 ≠ []) :
    ∀ e ∈ bucketsInsert c k x l, e.2 ≠ [] := by
  unfold bucketsInsert
  cases hfind : l.find? (fun e => c e.1 k) with
  | some a => exact bucketAppendFirst_nonempty c k x l hne
  | none =>
    intro e he
    rcases List.mem_append.mp he with he2 | he2
    · exact hne e he2
    · rcases List.mem_singleton.mp he2 with rfl
      simp

theorem innerBuckets_fold_nonempty {E : Type} (c : JSVal → JSVal → Bool)
    (ik : E → JSVal) :
    ∀ (l : List E) (bs : List (JSVal × List E)), (∀ e ∈ bs, e.2 ≠ []) →
      ∀ e ∈ l.foldl (fun bs i => bucketsInsert c (ik i) i bs) bs,
        e.2 ≠ [] := by
  intro l
  induction l with
  | nil => intro bs h; exact h
  | cons x xs ih =>
    intro bs h
    simp only [List.foldl_cons]
    exact ih (bucketsInsert c (ik x) x bs) (bucketsInsert_nonempty c _ x bs h)

theorem bucketAppendFirst_sum {E : Type} (c : JSVal → JSVal → Bool)
    (k : JSVal) (x : E) :
    ∀ l : List (JSVal × List E),
      (l.find? (fun e => c e.1 k)).isSome = true →
      ((bucketAppendFirst (some c) k x l).map (fun e => e.2.length)).sum =
        ((l.map (fun e => e.2.length)).sum) + 1 := by
  intro l
  induction l with
  | nil => intro hc; simp [List.find?] at hc
  | cons a as ih =>
    intro hc
    unfold bucketAppendFirst
    by_cases hm : JsHash.entryMatches (some c) a.1 k
    · rw [if_pos hm]
      simp only [List.map_cons, List.sum_cons, List.length_append,
        List.length_singleton]
      omega
    · rw [if_neg hm]
      have hm' : c a.1 k = false := by
        simpa [JsHash.entryMatches] using hm
      rw [List.find?_cons_of_neg _ (by simp [hm'])] at hc
      simp only [List.map_cons, List.sum_cons, ih hc]
      omega

theorem bucketsInsert_sum {E : Type} (c : JSVal → JSVal → Bool)
    (k : JSVal) (x : E) (l : List (JSVal × List E)) :
    ((bucketsInsert c k x l).map (fun e => e.2.length)).sum =
      ((l.map (fun e => e.2.length)).sum) + 1 := by
  unfold bucketsInsert
  cases hfind : l.find? (fun e => c e.1 k) with
  | some a => exact bucketAppendFirst_sum c k x l (by simp [hfind])
  | none => simp

theorem innerBuckets_fold_sum {E : Type} (c : JSVal → JSVal → Bool)
    (ik : E → JSVal) :
    ∀ (l : List E) (bs : List (JSVal × List E)),
      ((l.foldl (fun bs i => bucketsInsert c (ik i) i bs) bs).map
        (fun e => e.2.length)).sum =
      ((bs.map (fun e => e.2.length)).sum) + l.length := by
  intro l
  induction l with
  | nil => intro bs; simp
  | cons x xs ih =>
    intro bs
    simp only [List.foldl_cons, List.length_cons, ih,
      bucketsInsert_sum]
    omega

theorem mem_bucket_len_le_sum {E : Type} :
    ∀ (bs : List (JSVal × List E)) (e : JSVal × List E), e ∈ bs →
      e.2.length ≤ (bs.map (fun e => e.2.length)).sum := by
  intro bs
  induction bs with
  | nil => intro e he; exact absurd he (List.not_mem_nil e)
  | cons a as ih =>
    intro e he
    rcases List.mem_cons.mp he with rfl | he2
    · simp
    · simp only [List.map_cons, List.sum_cons]
      have := ih e he2
      omega

/-- The bucket the traversal reads for a query key: the elements of the
    first record whose stored key loosely matches it. -/
def joinLookup {E : Type} (c : JSVal → JSVal → Bool) (ik : E → JSVal)
    (inner : List E) (q : JSVal) : Option (List E) :=
  ((innerBuckets c ik inner).find? (fun e => c e.1 q)).map (fun e => e.2)

theorem buildInnerHash_keyExists_some {E : Type} (c : JSVal → JSVal → Bool)
    (ik : E → JSVal) (inner : List E) (q : JSVal) :
    JsHash.keyExists (some c) (fun _ => false)
        (buildInnerHash (some c) ik inner) q =
      (joinLookup c ik inner q).isSome := by
  rw [JsHash.keyExists_eq_hashFind, hashFind_some_comparer,
    buildInnerHash_some]
  unfold joinLookup
  simp

theorem buildInnerHash_get_some {E : Type} (c : JSVal → JSVal → Bool)
    (ik : E → JSVal) (inner : List E) (q : JSVal) :
    JsHash.get (some c) (fun _ => false)
        (buildInnerHash (some c) ik inner) q =
      (match joinLookup c ik inner q with
       | some b => .ok b
       | none => .error .thrownValue) := by
  rw [JsHash.get_eq_hashFind, hashFind_some_comparer,
    buildInnerHash_some]
  unfold joinLookup
  cases hfind : (innerBuckets c ik inner).find? (fun e => c e.1 q) with
  | some e => rfl
  | none => rfl

theorem joinLookup_nonempty {E : Type} (c : JSVal → JSVal → Bool)
    (ik : E → JSVal) (inner : List E) (q : JSVal) (b : List E)
    (hb : joinLookup c ik inner q = some b) : b ≠ [] := by
  unfold joinLookup at hb
  rcases Option.map_eq_some'.mp hb with ⟨e, hfind, hsnd⟩
  have hmem := List.mem_of_find?_eq_some hfind
  have := innerBuckets_fold_nonempty c ik inner []
    (by intro e he; exact absurd he (List.not_mem_nil e)) e hmem
  rw [← hsnd]
  exact this

theorem joinLookup_len_le {E : Type} (c : JSVal → JSVal → Bool)
    (ik : E → JSVal) (inner : List E) (q : JSVal) (b : List E)
    (hb : joinLookup c ik inner q = some b) : b.length ≤ inner.length := by
  unfold joinLookup at hb
  rcases Option.map_eq_some'.mp hb with ⟨e, hfind, hsnd⟩
  have hmem := List.mem_of_find?_eq_some hfind
  have hle := mem_bucket_len_le_sum (innerBuckets c ik inner) e hmem
  have hsum := innerBuckets_fold_sum c ik inner []
  unfold innerBuckets at hle
  simp only [List.map_nil, List.sum_nil] at hsum
  rw [← hsnd]
  omega

/- ----------------------------------------------------------------------
   The join enumerator, non-group branch (claims C2, C5).  State mirrors
   the closure variables of the source:
     hash          null until the first moveNext (lazyInitialize)
     enumerator    the outer enumerator (a source adapter here)
     hasNext, firstElement, secondElement
     secondList    the bucket currently being expanded (or null)
     index         the in-bucket cursor (starts -1)
   moveNext:
     if (hash == null) lazyInitialize();
     if (secondList != null && ++index < secondList.length) {
       secondElement = secondList[index]; hasNext = true;
     } else {
       hasNext = false;
       while (enumerator.moveNext()) {
         current = enumerator.current(); key = outerKeySelector(current);
         if (hash.keyExists(key)) {
           secondList = hash.get(key); secondElement = secondList[0];
           index = 0; hasNext = true; firstElement = current; break;
         }
       }
     }
     return hasNext;
   Note ++index is evaluated (and mutates index) whenever secondList is
   non-null, even when the bound check then fails.
   current: if (!hasNext) throw; return resultSelector(firstElement,
   secondElement);  reset: enumerator.reset();  — only the outer
   enumerator is rewound; hash, secondList and index are left as they
   are.  The hash always carries the default comparer (loose ==), so
   every lookup is a complex-path linear scan (see above).
   ---------------------------------------------------------------------- -/

structure JoinState (α β : Type) where
  hash : Option (HashData (List β))
  enumerator : AdapterState α
  hasNext : Bool
  firstElement : α
  secondElement : β
  secondList : Option (List β)
  index : Int

def joinInit [Inhabited α] [Inhabited β] (outer : List α) : JoinState α β :=
  ⟨none, adapterInit outer, false, default, default, none, -1⟩

/-- The while-loop of the else branch: advance the outer enumerator to
    the first element whose key has a bucket (returning it with its
    bucket), or to exhaustion. -/
def joinScanAux (ok : α → JSVal) (h : HashData (List β)) :
    Nat → AdapterState α → AdapterState α × Option (α × List β)
  | 0, st => (st, none)
  | n + 1, st =>
    if (adapterMoveNext st).2 then
      match adapterCurrent (adapterMoveNext st).1 with
      | .ok cur =>
        if JsHash.keyExists (some looseEq) (fun _ => false) h (ok cur) then
          match JsHash.get (some looseEq) (fun _ => false) h (ok cur) with
          | .ok l => ((adapterMoveNext st).1, some (cur, l))
          | .error _ => ((adapterMoveNext st).1, none)
        else joinScanAux ok h n (adapterMoveNext st).1
      | .error _ => ((adapterMoveNext st).1, none)
    else ((adapterMoveNext st).1, none)

def joinScan (ok : α → JSVal) (h : HashData (List β))
    (st : AdapterState α) : AdapterState α × Option (α × List β) :=
  joinScanAux ok h (st.value.length + 1) st

theorem joinScanAux_succ (ok : α → JSVal) (h : HashData (List β))
    (n : Nat) (st : AdapterState α) :
    joinScanAux ok h (n + 1) st =
      if (adapterMoveNext st).2 then
        match adapterCurrent (adapterMoveNext st).1 with
        | .ok cur =>
          if JsHash.keyExists (some looseEq) (fun _ => false) h (ok cur) then
            match JsHash.get (some looseEq) (fun _ => false) h (ok cur) with
            | .ok l => ((adapterMoveNext st).1, some (cur, l))
            | .error _ => ((adapterMoveNext st).1, none)
          else joinScanAux ok h n (adapterMoveNext st).1
        | .error _ => ((adapterMoveNext st).1, none)
      else ((adapterMoveNext st).1, none) := rfl

def joinMoveNextElse [Inhabited β] (ok : α → JSVal) (h : HashData (List β))
    (s : JoinState α β) : JoinState α β × Bool :=
  match joinScan ok h s.enumerator with
  | (st', some (cur, l)) =>
    ({ s with
        enumerator := st'
        secondList := some l
        secondElement := l.getD 0 default
        index := 0
        hasNext := true
        firstElement := cur }, true)
  | (st', none) => ({ s with enumerator := st', hasNext := false }, false)

def joinMoveNextCore [Inhabited β] (ok : α → JSVal) (h : HashData (List β))
    (s : JoinState α β) : JoinState α β × Bool :=
  match s.secondList with
  | some l =>
    if s.index + 1 < (l.length : Int) then
      ({ s with
          index := s.index + 1
          secondElement := l.getD (s.index + 1).toNat default
          hasNext := true }, true)
    else joinMoveNextElse ok h { s with index := s.index + 1 }
  | none => joinMoveNextElse ok h s

def joinMoveNext [Inhabited β] (ok : α → JSVal) (ik : β → JSVal)
    (inner : List β) (s : JoinState α β) : JoinState α β × Bool :=
  match s.hash with
  | none =>
    joinMoveNextCore ok (buildInnerHash (some looseEq) ik inner)
      { s with hash := some (buildInnerHash (some looseEq) ik inner) }
  | some h => joinMoveNextCore ok h s

def joinCurrent (rs : α → β → ρ) (s : JoinState α β) : Except JsErr ρ :=
  if s.hasNext then .ok (rs s.firstElement s.secondElement)
  else .error .invalidOperation

def joinReset (s : JoinState α β) : JoinState α β :=
  { s with enumerator := adapterReset s.enumerator }

/-- What the traversal emits: for each outer element in order, the
    entire first bucket whose representative key loosely equals the
    outer key, or nothing when no bucket matches. -/
def joinSpecList {α β ρ : Type} (ok : α → JSVal) (ik : β → JSVal)
    (rs : α → β → ρ) (inner : List β) (outerRem : List α) : List ρ :=
  outerRem.flatMap fun o =>
    match joinLookup looseEq ik inner (ok o) with
    | some b => b.map (rs o)
    | none => []

def remainingOuter (st : AdapterState α) : List α :=
  st.value.drop (st.index + 1).toNat

/-- The output still to be produced from a given join state. -/
def joinPending (ok : α → JSVal) (ik : β → JSVal) (rs : α → β → ρ)
    (inner : List β) (s : JoinState α β) : List ρ :=
  (match s.secondList with
   | some l =>
     if s.index + 1 < (l.length : Int) then
       (l.drop (s.index + 1).toNat).map (rs s.firstElement)
     else []
   | none => []) ++ joinSpecList ok ik rs inner (remainingOuter s.enumerator)

/-- The first element of the list accepted by the test, with the rest of
    the list after it. -/
def scanSpec (P : α → Bool) : List α → Option (α × List α)
  | [] => none
  | x :: xs => if P x then some (x, xs) else scanSpec P xs

theorem joinScanAux_spec (ok : α → JSVal) (ik : β → JSVal) (inner : List β) :
    ∀ (n : Nat) (v : List α) (j : Nat), j ≤ v.length →
      v.length - j + 1 ≤ n →
      (match scanSpec (fun o => (joinLookup looseEq ik inner (ok o)).isSome)
          (v.drop j) with
       | none =>
         joinScanAux ok (buildInnerHash (some looseEq) ik inner) n
             (⟨v, (j : Int) - 1⟩ : AdapterState α) =
           (⟨v, (v.length : Int)⟩, none)
       | some (o, rest) =>
         ∃ (kpos : Nat) (b : List β), kpos < v.length ∧
           v.drop kpos = o :: rest ∧
           joinLookup looseEq ik inner (ok o) = some b ∧
           joinScanAux ok (buildInnerHash (some looseEq) ik inner) n
               (⟨v, (j : Int) - 1⟩ : AdapterState α) =
             (⟨v, (kpos : Int)⟩, some (o, b))) := by
  intro n
  induction n with
  | zero => intro v j hj hn; omega
  | succ n ih =>
    intro v j hj hn
    by_cases hlt : j < v.length
    · have hdrop : v.drop j = v.get ⟨j, hlt⟩ :: v.drop (j + 1) := by
        rw [← List.getElem_cons_drop v j hlt]
        rfl
      have hmn : (adapterMoveNext (⟨v, (j : Int) - 1⟩ : AdapterState α)).2 =
          true := by
        simp only [adapterMoveNext, decide_eq_true_eq]
        have harith : ((j : Int) - 1 + 1) = (j : Int) := by ring
        rw [harith]
        exact_mod_cast hlt
      have hmn1 : (adapterMoveNext (⟨v, (j : Int) - 1⟩ : AdapterState α)).1 =
          (⟨v, (j : Int)⟩ : AdapterState α) := by
        simp only [adapterMoveNext]
        congr 1
        ring
      by_cases hP : (joinLookup looseEq ik inner (ok (v.get ⟨j, hlt⟩))).isSome
      · obtain ⟨b, hb⟩ := Option.isSome_iff_exists.mp hP
        rw [hdrop]
        simp only [scanSpec, hP, if_true]
        refine ⟨j, b, hlt, hdrop, hb, ?_⟩
        rw [joinScanAux_succ, hmn, hmn1]
        simp only [if_true, adapterCurrent_at v j hlt,
          buildInnerHash_keyExists_some, hP, if_true,
          buildInnerHash_get_some, hb, Option.isSome_some]
      · rw [hdrop]
        simp only [scanSpec, hP, Bool.false_eq_true, if_false]
        have hidx : ((j + 1 : Nat) : Int) - 1 = (j : Int) := by
          push_cast
          ring
        have hrec := ih v (j + 1) (by omega) (by omega)
        rw [hidx] at hrec
        have hstep : joinScanAux ok (buildInnerHash (some looseEq) ik inner)
            (n + 1) (⟨v, (j : Int) - 1⟩ : AdapterState α) =
            joinScanAux ok (buildInnerHash (some looseEq) ik inner) n
              (⟨v, (j : Int)⟩ : AdapterState α) := by
          rw [joinScanAux_succ, hmn, hmn1]
          simp only [if_true, adapterCurrent_at v j hlt,
            buildInnerHash_keyExists_some, hP, Bool.false_eq_true, if_false]
        simp only [hstep]
        exact hrec
    · have hje : j = v.length := by omega
      subst hje
      rw [List.drop_length]
      simp only [scanSpec]
      have hmn : (adapterMoveNext
          (⟨v, (v.length : Int) - 1⟩ : AdapterState α)).2 = false := by
        simp only [adapterMoveNext, decide_eq_false_iff_not]
        intro hcontra
        omega
      rw [joinScanAux_succ, hmn]
      simp only [Bool.false_eq_true, if_false, adapterMoveNext]
      congr 2
      ring

theorem filter_ne_nil_of_any {γ : Type} (p : γ → Bool) (l : List γ)
    (h : l.any p = true) : l.filter p ≠ [] := by
  obtain ⟨x, hx, hpx⟩ := List.any_eq_true.mp h
  intro hc
  have hmem := List.mem_filter.mpr ⟨hx, hpx⟩
  rw [hc] at hmem
  exact absurd hmem (List.not_mem_nil x)

/-- joinSpecList follows scanSpec: outer elements with no matching
    bucket contribute nothing, and the first outer element with a
    matching bucket contributes that whole bucket up front. -/
theorem joinSpecList_scanSpec {α β ρ : Type} (ok : α → JSVal)
    (ik : β → JSVal) (rs : α → β → ρ) (inner : List β) :
    ∀ xs : List α,
      match scanSpec (fun o => (joinLookup looseEq ik inner (ok o)).isSome)
          xs with
      | none => joinSpecList ok ik rs inner xs = []
      | some (o, rest) =>
        joinSpecList ok ik rs inner xs =
          (match joinLookup looseEq ik inner (ok o) with
           | some b => b.map (rs o)
           | none => []) ++ joinSpecList ok ik rs inner rest := by
  intro xs
  induction xs with
  | nil => rfl
  | cons x r ih =>
    by_cases hP : (joinLookup looseEq ik inner (ok x)).isSome
    · simp only [scanSpec, hP, if_true]
      simp [joinSpecList]
    · simp only [scanSpec, hP, Bool.false_eq_true, if_false]
      have hnone : joinLookup looseEq ik inner (ok x) = none :=
        Option.not_isSome_iff_eq_none.mp hP
      cases hscan : scanSpec
          (fun o => (joinLookup looseEq ik inner (ok o)).isSome) r with
      | none =>
        rw [hscan] at ih
        simp only [joinSpecList, List.flatMap_cons, hnone, List.nil_append]
        simpa [joinSpecList] using ih
      | some p =>
        rw [hscan] at ih
        obtain ⟨o, rest⟩ := p
        simp only [joinSpecList, List.flatMap_cons, hnone, List.nil_append]
        simpa [joinSpecList] using ih

theorem joinSpecList_length_le {α β ρ : Type} (ok : α → JSVal)
    (ik : β → JSVal) (rs : α → β → ρ) (inner : List β) :
    ∀ xs : List α,
      (joinSpecList ok ik rs inner xs).length ≤ xs.length * inner.length := by
  intro xs
  induction xs with
  | nil => simp [joinSpecList]
  | cons x r ih =>
    simp only [joinSpecList, List.flatMap_cons, List.length_append,
      List.length_cons, Nat.succ_mul]
    have harm : (match joinLookup looseEq ik inner (ok x) with
        | some b => b.map (rs x)
        | none => ([] : List ρ)).length ≤ inner.length := by
      cases hb : joinLookup looseEq ik inner (ok x) with
      | some b =>
        simpa using joinLookup_len_le looseEq ik inner (ok x) b hb
      | none => simp
    simp only [joinSpecList] at ih
    omega

theorem scanSpec_some {γ : Type} (P : γ → Bool) :
    ∀ (xs : List γ) (o : γ) (rest : List γ),
      scanSpec P xs = some (o, rest) → P o = true := by
  intro xs
  induction xs with
  | nil => intro o rest h; exact absurd h (by simp [scanSpec])
  | cons x r ih =>
    intro o rest h
    by_cases hP : P x
    · simp only [scanSpec, hP, if_true, Option.some.injEq, Prod.mk.injEq] at h
      rw [← h.1]
      exact hP
    · simp only [scanSpec, hP, Bool.false_eq_true, if_false] at h
      exact ih o rest h

/-- What one run of the while-loop (the else branch of join's moveNext)
    does, on an outer enumerator positioned before offset j: either no
    remaining outer element has a matching bucket — the enumerator is
    exhausted and moveNext reports false — or the first one that does is
    loaded along with its whole bucket. -/
theorem joinElse_spec {α β ρ : Type} [Inhabited β] (ok : α → JSVal)
    (ik : β → JSVal) (rs : α → β → ρ) (inner : List β)
    (s' : JoinState α β) (v : List α) (j : Nat)
    (hen : s'.enumerator = (⟨v, (j : Int) - 1⟩ : AdapterState α))
    (hj : j ≤ v.length) :
    ((joinMoveNextElse ok (buildInnerHash (some looseEq) ik inner) s').2 =
       false ∧
     joinSpecList ok ik rs inner (v.drop j) = [] ∧
     (joinMoveNextElse ok (buildInnerHash (some looseEq) ik inner) s').1 =
       { s' with enumerator := ⟨v, (v.length : Int)⟩, hasNext := false }) ∨
    (∃ (o : α) (rest : List α) (kpos : Nat) (b0 : β) (bt : List β),
       kpos < v.length ∧
       v.drop kpos = o :: rest ∧
       joinLookup looseEq ik inner (ok o) = some (b0 :: bt) ∧
       joinSpecList ok ik rs inner (v.drop j) =
         rs o b0 :: (bt.map (rs o) ++ joinSpecList ok ik rs inner rest) ∧
       (joinMoveNextElse ok (buildInnerHash (some looseEq) ik inner) s').2 =
         true ∧
       (joinMoveNextElse ok (buildInnerHash (some looseEq) ik inner) s').1 =
         { s' with
             enumerator := ⟨v, (kpos : Int)⟩
             secondList := some (b0 :: bt)
             secondElement := b0
             index := 0
             hasNext := true
             firstElement := o }) := by
  have hscan := joinScanAux_spec ok ik inner (v.length + 1) v j hj (by omega)
  have hspec := joinSpecList_scanSpec ok ik rs inner (v.drop j)
  cases hsc : scanSpec
      (fun o => (joinLookup looseEq ik inner (ok o)).isSome) (v.drop j) with
  | none =>
    rw [hsc] at hscan hspec
    left
    unfold joinMoveNextElse joinScan
    rw [hen]
    simp only [hscan]
    exact ⟨trivial, hspec, trivial⟩
  | some p =>
    obtain ⟨o, rest⟩ := p
    rw [hsc] at hscan hspec
    obtain ⟨kpos, b, hklt, hkdrop, hb, hrun⟩ := hscan
    right
    have hne := joinLookup_nonempty looseEq ik inner (ok o) b hb
    cases b with
    | nil => exact absurd rfl hne
    | cons b0 bt =>
      refine ⟨o, rest, kpos, b0, bt, hklt, hkdrop, hb, ?_, ?_, ?_⟩
      · rw [hspec, hb]
        simp
      · unfold joinMoveNextElse joinScan
        rw [hen]
        simp only [hrun]
      · unfold joinMoveNextElse joinScan
        rw [hen]
        simp only [hrun, List.getD_cons_zero]

/-- Invariant carried by the join enumerator between moveNext calls. -/
def JoinOk {α β : Type} (ik : β → JSVal) (inner : List β)
    (s : JoinState α β) : Prop :=
  (s.hash = none ∨ s.hash = some (buildInnerHash (some looseEq) ik inner)) ∧
  (∃ j : Nat, j ≤ s.enumerator.value.length ∧
    s.enumerator.index = (j : Int) - 1) ∧
  (∀ l, s.secondList = some l → 0 ≤ s.index)

/-- What holds of the join enumerator's state after moveNext has
    returned false: hash built, outer enumerator exhausted, and any
    loaded bucket fully consumed. -/
def JoinFinal {α β : Type} (ik : β → JSVal) (inner : List β)
    (s : JoinState α β) (v : List α) : Prop :=
  s.hash = some (buildInnerHash (some looseEq) ik inner) ∧
  s.enumerator.value = v ∧
  remainingOuter s.enumerator = [] ∧
  (∀ l, s.secondList = some l → (l.length : Int) ≤ s.index ∧ 0 ≤ s.index)

theorem bucketMid_eq {β ρ : Type} (f : β → ρ) (b0 : β) (bt : List β) :
    (if (0 : Int) + 1 < (((b0 :: bt).length : Nat) : Int) then
       ((b0 :: bt).drop ((0 : Int) + 1).toNat).map f else []) = bt.map f := by
  have h1 : ((0 : Int) + 1).toNat = 1 := by omega
  rw [h1]
  by_cases hb : (0 : Int) + 1 < (((b0 :: bt).length : Nat) : Int)
  · rw [if_pos hb]
    rfl
  · rw [if_neg hb]
    simp only [List.length_cons] at hb
    have hbt : bt = [] := by
      have : bt.length = 0 := by omega
      exact List.eq_nil_of_length_eq_zero this
    rw [hbt]
    rfl

/-- One moveNext call on a join enumerator satisfying the invariant:
    either it reports false with nothing pending and a final state, or
    it reports true, produces exactly the head of the pending output,
    and leaves the tail pending with the invariant intact. -/
theorem joinStep {α β ρ : Type} [Inhabited β] (ok : α → JSVal)
    (ik : β → JSVal) (rs : α → β → ρ) (inner : List β)
    (s : JoinState α β) (hOk : JoinOk ik inner s) :
    ((joinMoveNext ok ik inner s).2 = false ∧
       joinPending ok ik rs inner s = [] ∧
       JoinFinal ik inner (joinMoveNext ok ik inner s).1
         s.enumerator.value) ∨
    ((joinMoveNext ok ik inner s).2 = true ∧
       JoinOk ik inner (joinMoveNext ok ik inner s).1 ∧
       (joinMoveNext ok ik inner s).1.enumerator.value =
         s.enumerator.value ∧
       ∃ r, joinCurrent rs (joinMoveNext ok ik inner s).1 = .ok r ∧
         joinPending ok ik rs inner s =
           r :: joinPending ok ik rs inner (joinMoveNext ok ik inner s).1) := by
  obtain ⟨hh, ⟨j, hj, hidx⟩, hsl⟩ := hOk
  have hmn : joinMoveNext ok ik inner s =
      joinMoveNextCore ok (buildInnerHash (some looseEq) ik inner)
        { s with hash := some (buildInnerHash (some looseEq) ik inner) } := by
    rcases hh with hh | hh
    · unfold joinMoveNext
      rw [hh]
    · unfold joinMoveNext
      rw [hh]
      have hseq : ({ s with hash := some (buildInnerHash (some looseEq) ik inner) } :
          JoinState α β) = s := by
        cases s
        simp only at hh
        rw [hh]
      rw [hseq]
  have hremj : remainingOuter s.enumerator = s.enumerator.value.drop j := by
    unfold remainingOuter
    rw [hidx]
    congr 1
    omega
  rcases hslv : s.secondList with _ | l
  · -- no bucket loaded: straight to the while-loop
    have hres : joinMoveNext ok ik inner s =
        joinMoveNextElse ok (buildInnerHash (some looseEq) ik inner)
          { s with hash := some (buildInnerHash (some looseEq) ik inner) } := by
      rw [hmn]
      unfold joinMoveNextCore
      simp only [hslv]
    rcases joinElse_spec ok ik rs inner
        { s with hash := some (buildInnerHash (some looseEq) ik inner) }
        s.enumerator.value j (by rw [← hidx]) hj with
      ⟨hf2, hfnil, hfst⟩ | ⟨o, rest, kpos, b0, bt, hklt, hkdrop, hb,
        hdec, ht2, hst⟩
    · left
      rw [hres]
      refine ⟨hf2, ?_, ?_⟩
      · unfold joinPending
        simp only [hslv]
        rw [hremj, hfnil]
        rfl
      · rw [hfst]
        refine ⟨rfl, rfl, ?_, ?_⟩
        · unfold remainingOuter
          simp only
          have : ((s.enumerator.value.length : Int) + 1).toNat =
              s.enumerator.value.length + 1 := by omega
          rw [this]
          exact List.drop_eq_nil_of_le (by omega)
        · intro l' hl'
          simp only [hslv] at hl'
          exact absurd hl' (by simp)
    · right
      rw [hres]
      refine ⟨ht2, ?_, ?_, ?_⟩
      · rw [hst]
        refine ⟨Or.inr rfl, ⟨kpos + 1, by simp only; omega, by
          simp only; push_cast; ring⟩, ?_⟩
        intro l' hl'
        simp only
        omega
      · rw [hst]
      · refine ⟨rs o b0, by rw [hst]; rfl, ?_⟩
        rw [hst]
        unfold joinPending
        simp only [hslv]
        rw [hremj, hdec]
        simp only [List.nil_append]
        congr 1
        have hremk : remainingOuter
            (⟨s.enumerator.value, (kpos : Int)⟩ : AdapterState α) =
            rest := by
          unfold remainingOuter
          simp only
          have h1 : ((kpos : Int) + 1).toNat = kpos + 1 := by omega
          rw [h1, ← List.drop_drop 1 kpos s.enumerator.value, hkdrop]
          rfl
        rw [bucketMid_eq, hremk]
  · -- a bucket is loaded
    have hi0 : 0 ≤ s.index := hsl l hslv
    by_cases hbound : s.index + 1 < (l.length : Int)
    · -- still elements in the bucket: advance within it
      right
      have hi0lt : (s.index + 1).toNat < l.length := by omega
      have hres : joinMoveNext ok ik inner s =
          ({ s with
              hash := some (buildInnerHash (some looseEq) ik inner)
              index := s.index + 1
              secondElement := l.getD (s.index + 1).toNat default
              hasNext := true }, true) := by
        rw [hmn]
        unfold joinMoveNextCore
        simp only [hslv]
        rw [if_pos hbound]
      rw [hres]
      refine ⟨rfl, ⟨Or.inr rfl, ⟨j, hj, hidx⟩, ?_⟩, rfl, ?_⟩
      · intro l' hl'
        simp only at hl' ⊢
        omega
      · refine ⟨rs s.firstElement (l.getD (s.index + 1).toNat default),
          rfl, ?_⟩
        unfold joinPending
        simp only [hslv]
        rw [if_pos hbound]
        have hgd : l.getD (s.index + 1).toNat default =
            l.get ⟨(s.index + 1).toNat, hi0lt⟩ := by
          rw [List.getD_eq_getElem l default hi0lt]
          rfl
        have hdropl : l.drop (s.index + 1).toNat =
            l.get ⟨(s.index + 1).toNat, hi0lt⟩ ::
              l.drop ((s.index + 1).toNat + 1) := by
          rw [← List.getElem_cons_drop l (s.index + 1).toNat hi0lt]
          rfl
        have hmid2 : (if s.index + 1 + 1 < (l.length : Int) then
            (l.drop (s.index + 1 + 1).toNat).map (rs s.firstElement)
            else []) =
            (l.drop ((s.index + 1).toNat + 1)).map (rs s.firstElement) := by
          by_cases hb2 : s.index + 1 + 1 < (l.length : Int)
          · rw [if_pos hb2]
            have : (s.index + 1 + 1).toNat = (s.index + 1).toNat + 1 := by
              omega
            rw [this]
          · rw [if_neg hb2]
            have : l.length ≤ (s.index + 1).toNat + 1 := by omega
            rw [List.drop_eq_nil_of_le this]
            rfl
        rw [hdropl, hgd, hmid2]
        rfl
    · -- bucket exhausted: the index is still incremented, then the
      -- while-loop scans the remaining outer elements
      have hres : joinMoveNext ok ik inner s =
          joinMoveNextElse ok (buildInnerHash (some looseEq) ik inner)
            { s with
                hash := some (buildInnerHash (some looseEq) ik inner)
                index := s.index + 1 } := by
        rw [hmn]
        unfold joinMoveNextCore
        simp only [hslv]
        rw [if_neg hbound]
      rcases joinElse_spec ok ik rs inner
          { s with
              hash := some (buildInnerHash (some looseEq) ik inner)
              index := s.index + 1 }
          s.enumerator.value j (by rw [← hidx]) hj with
        ⟨hf2, hfnil, hfst⟩ | ⟨o, rest, kpos, b0, bt, hklt, hkdrop, hb,
          hdec, ht2, hst⟩
      · left
        rw [hres]
        refine ⟨hf2, ?_, ?_⟩
        · unfold joinPending
          simp only [hslv]
          rw [if_neg hbound, hremj, hfnil]
          rfl
        · rw [hfst]
          refine ⟨rfl, rfl, ?_, ?_⟩
          · unfold remainingOuter
            simp only
            have : ((s.enumerator.value.length : Int) + 1).toNat =
                s.enumerator.value.length + 1 := by omega
            rw [this]
            exact List.drop_eq_nil_of_le (by omega)
          · intro l' hl'
            simp only [hslv, Option.some.injEq] at hl'
            subst hl'
            refine ⟨by simp only; omega, by simp only; omega⟩
      · right
        rw [hres]
        refine ⟨ht2, ?_, ?_, ?_⟩
        · rw [hst]
          refine ⟨Or.inr rfl, ⟨kpos + 1, by simp only; omega, by
            simp only; push_cast; ring⟩, ?_⟩
          intro l' hl'
          simp only
          omega
        · rw [hst]
        · refine ⟨rs o b0, by rw [hst]; rfl, ?_⟩
          rw [hst]
          unfold joinPending
          simp only [hslv]
          rw [if_neg hbound, hremj, hdec]
          simp only [List.nil_append]
          congr 1
          have hremk : remainingOuter
              (⟨s.enumerator.value, (kpos : Int)⟩ : AdapterState α) =
              rest := by
            unfold remainingOuter
            simp only
            have h1 : ((kpos : Int) + 1).toNat = kpos + 1 := by omega
            rw [h1, ← List.drop_drop 1 kpos s.enumerator.value, hkdrop]
            rfl
          rw [bucketMid_eq, hremk]

/-- Draining the join enumerator with enough fuel returns exactly the
    pending output and ends in a final (exhausted) state. -/
theorem joinDrain {α β ρ : Type} [Inhabited β] (ok : α → JSVal)
    (ik : β → JSVal) (rs : α → β → ρ) (inner : List β) :
    ∀ (fuel : Nat) (s : JoinState α β), JoinOk ik inner s →
      (joinPending ok ik rs inner s).length + 1 ≤ fuel →
      (drain (joinMoveNext ok ik inner) (joinCurrent rs) fuel s).1 =
          joinPending ok ik rs inner s ∧
        JoinFinal ik inner
          (drain (joinMoveNext ok ik inner) (joinCurrent rs) fuel s).2
          s.enumerator.value := by
  intro fuel
  induction fuel with
  | zero => intro s hOk hlen; omega
  | succ n ih =>
    intro s hOk hlen
    rcases joinStep ok ik rs inner s hOk with
      ⟨h2, hnil, hfin⟩ | ⟨h2, hOk2, hval, r, hcur, hpend⟩
    · simp only [drain, h2, Bool.false_eq_true, if_false]
      exact ⟨hnil.symm, hfin⟩
    · simp only [drain, h2, if_true, hcur]
      have hlen2 : (joinPending ok ik rs inner
          (joinMoveNext ok ik inner s).1).length + 1 ≤ n := by
        rw [hpend] at hlen
        simp only [List.length_cons] at hlen
        omega
      obtain ⟨hout, hfin⟩ := ih (joinMoveNext ok ik inner s).1 hOk2 hlen2
      refine ⟨?_, ?_⟩
      · rw [hout, hpend]
      · rw [← hval]
        exact hfin

theorem joinInit_ok {α β : Type} [Inhabited α] [Inhabited β]
    (ik : β → JSVal) (inner : List β) (outer : List α) :
    JoinOk ik inner (joinInit outer : JoinState α β) := by
  refine ⟨Or.inl rfl, ⟨0, by simp [joinInit, adapterInit], ?_⟩, ?_⟩
  · norm_num [joinInit, adapterInit]
  · intro l hl
    exact absurd hl (by simp [joinInit])

theorem joinPending_init {α β ρ : Type} [Inhabited α] [Inhabited β]
    (ok : α → JSVal) (ik : β → JSVal) (rs : α → β → ρ)
    (inner : List β) (outer : List α) :
    joinPending ok ik rs inner (joinInit outer : JoinState α β) =
      joinSpecList ok ik rs inner outer := by
  unfold joinPending joinInit adapterInit remainingOuter
  norm_num

/-- toArray on a join enumerator over an adapter source, with ample
    fuel for the worst case (every pair matching, plus the final
    moveNext that returns false). -/
def joinToArray {α β ρ : Type} [Inhabited α] [Inhabited β]
    (ok : α → JSVal) (ik : β → JSVal) (rs : α → β → ρ)
    (outer : List α) (inner : List β) : List ρ :=
  (drain (joinMoveNext ok ik inner) (joinCurrent rs)
    (outer.length * inner.length + 1) (joinInit outer)).1

instance : Inhabited JSVal := ⟨JSVal.undef⟩

/-- Written from the claim: one result element per loosely-matching
    (outer, inner) key pair — the default comparer's equals is the
    non-strict == — in outer-then-inner order. -/
def joinAllPairsSpec {α β ρ : Type} (ok : α → JSVal) (ik : β → JSVal)
    (rs : α → β → ρ) (inner : List β) (outerRem : List α) : List ρ :=
  outerRem.flatMap fun o =>
    (inner.filter fun i => looseEq (ik i) (ok o)).map (rs o)

/-- Counterexample to C2 as stated: loose equality is not transitive
    across types, so the hash's first-match bucketing can miss matching
    pairs.  Inner keys '01', 1, '1' (values a, b, c) bucket as
    ['01' → a, b] (since '01' == 1) and ['1' → c] (since '01' != '1');
    outer key 1 reads the first matching bucket, yielding a, b only,
    although (1, '1') is also a matching pair (1 == '1'), so
    one-result-per-matching-pair would yield a, b, c. -/
theorem c2_counterexample :
    joinToArray (fun o => JSVal.num o) (fun i => i.1) (fun _ i => i.2)
        [(1 : Int)]
        [(JSVal.str "01", "a"), (JSVal.num 1, "b"), (JSVal.str "1", "c")] =
      ["a", "b"] ∧
    joinAllPairsSpec (fun o => JSVal.num o) (fun i => i.1) (fun _ i => i.2)
        [(JSVal.str "01", "a"), (JSVal.num 1, "b"), (JSVal.str "1", "c")]
        [(1 : Int)] =
      ["a", "b", "c"] ∧
    joinToArray (fun o => JSVal.num o) (fun i => i.1) (fun _ i => i.2)
        [(1 : Int)]
        [(JSVal.str "01", "a"), (JSVal.num 1, "b"), (JSVal.str "1", "c")] ≠
      joinAllPairsSpec (fun o => JSVal.num o) (fun i => i.1) (fun _ i => i.2)
        [(JSVal.str "01", "a"), (JSVal.num 1, "b"), (JSVal.str "1", "c")]
        [(1 : Int)] := by
  refine ⟨by decide, by decide, by decide⟩

/-- C2 (amended): with the always-default comparer, join's hash matches
    keys by loose equality along a linear scan and buckets the inner
    sequence sequentially — each inner element joins the first bucket
    whose representative key it loosely equals, else opens a new one.
    The traversal emits, for each outer element in order, the whole
    first bucket whose representative key loosely equals the outer key,
    or nothing when none does.  On the spec's example (ids [1,2] against
    oids [1,1,3]) this coincides with one result per matching pair and
    yields [(1,'a'),(1,'b')]. -/
theorem c2_join_inner_semantics :
    (∀ (α β ρ : Type) [Inhabited α] [Inhabited β]
       (ok : α → JSVal) (ik : β → JSVal) (rs : α → β → ρ)
       (outer : List α) (inner : List β),
       joinToArray ok ik rs outer inner =
         joinSpecList ok ik rs inner outer) ∧
    joinToArray (fun o => JSVal.num o) (fun i => JSVal.num i.1)
        (fun o i => (o, i.2)) [1, 2]
        [(1, "a"), (1, "b"), (3, "c")] =
      [((1 : Int), "a"), (1, "b")] := by
  have hgen : ∀ (α β ρ : Type) [Inhabited α] [Inhabited β]
      (ok : α → JSVal) (ik : β → JSVal) (rs : α → β → ρ)
      (outer : List α) (inner : List β),
      joinToArray ok ik rs outer inner =
        joinSpecList ok ik rs inner outer := by
    intro α β ρ iA iB ok ik rs outer inner
    have hlen : (joinPending ok ik rs inner
        (joinInit outer : JoinState α β)).length + 1 ≤
        outer.length * inner.length + 1 := by
      rw [joinPending_init]
      have := joinSpecList_length_le ok ik rs inner outer
      omega
    obtain ⟨hout, hfin⟩ := joinDrain ok ik rs inner
      (outer.length * inner.length + 1) (joinInit outer)
      (joinInit_ok ik inner outer) hlen
    unfold joinToArray
    rw [hout, joinPending_init]
  refine ⟨hgen, ?_⟩
  rw [hgen]
  decide

/- ----------------------------------------------------------------------
   The join enumerator, group branch (groupJoin; claims C5, C6).  Same
   closure, but moveNext is:
     if (hash == null) lazyInitialize();
     hasNext = enumerator.moveNext();
     if (hasNext) {
       current = enumerator.current(); key = outerKeySelector(current);
       firstElement = current;
       if (hash.keyExists(key))
         secondElement = new Enumerable(hash.get(key));
       else
         secondElement = Enumerable.empty();
     }
     return hasNext;
   The paired Enumerable is modeled by its underlying array.  current
   and reset are as in the non-group branch.
   ---------------------------------------------------------------------- -/

structure GroupJoinState (α β : Type) where
  hash : Option (HashData (List β))
  enumerator : AdapterState α
  hasNext : Bool
  firstElement : α
  secondElement : List β

def groupJoinInit {α β : Type} [Inhabited α] (outer : List α) :
    GroupJoinState α β :=
  ⟨none, adapterInit outer, false, default, []⟩

def groupJoinMoveNextCore {α β : Type} (ok : α → JSVal)
    (h : HashData (List β)) (s : GroupJoinState α β) :
    GroupJoinState α β × Bool :=
  if (adapterMoveNext s.enumerator).2 then
    match adapterCurrent (adapterMoveNext s.enumerator).1 with
    | .ok cur =>
      ({ s with
          enumerator := (adapterMoveNext s.enumerator).1
          hasNext := true
          firstElement := cur
          secondElement :=
            if JsHash.keyExists (some looseEq) (fun _ => false) h (ok cur) then
              match JsHash.get (some looseEq) (fun _ => false) h (ok cur) with
              | .ok l => l
              | .error _ => []
            else [] }, true)
    -- current() cannot fail right after a successful moveNext on the
    -- adapter; the arm is present only to totalize the match
    | .error _ =>
      ({ s with
          enumerator := (adapterMoveNext s.enumerator).1
          hasNext := false }, false)
  else
    ({ s with
        enumerator := (adapterMoveNext s.enumerator).1
        hasNext := false }, false)

def groupJoinMoveNext {α β : Type} (ok : α → JSVal) (ik : β → JSVal)
    (inner : List β) (s : GroupJoinState α β) : GroupJoinState α β × Bool :=
  match s.hash with
  | none =>
    groupJoinMoveNextCore ok (buildInnerHash (some looseEq) ik inner)
      { s with hash := some (buildInnerHash (some looseEq) ik inner) }
  | some h => groupJoinMoveNextCore ok h s

def groupJoinCurrent {α β ρ : Type} (rs : α → List β → ρ)
    (s : GroupJoinState α β) : Except JsErr ρ :=
  if s.hasNext then .ok (rs s.firstElement s.secondElement)
  else .error .invalidOperation

def groupJoinReset {α β : Type} (s : GroupJoinState α β) :
    GroupJoinState α β :=
  { s with enumerator := adapterReset s.enumerator }

/-- Draining the groupJoin enumerator from outer offset j yields one
    result per remaining outer element — paired with the first bucket
    whose representative key loosely equals its key, or with the empty
    list — and ends exhausted with the hash built. -/
theorem groupJoinDrainAux {α β ρ : Type} [Inhabited α] (ok : α → JSVal)
    (ik : β → JSVal) (rs : α → List β → ρ) (inner : List β) (v : List α) :
    ∀ (n j : Nat), j ≤ v.length → v.length - j + 1 ≤ n →
    ∀ (h0 : Option (HashData (List β))) (b0 : Bool) (f0 : α) (s0 : List β),
      (h0 = none ∨ h0 = some (buildInnerHash (some looseEq) ik inner)) →
      (drain (groupJoinMoveNext ok ik inner) (groupJoinCurrent rs) n
          (⟨h0, ⟨v, (j : Int) - 1⟩, b0, f0, s0⟩ : GroupJoinState α β)).1 =
        (v.drop j).map
          (fun o => rs o (match joinLookup looseEq ik inner (ok o) with
            | some b => b
            | none => [])) ∧
      (drain (groupJoinMoveNext ok ik inner) (groupJoinCurrent rs) n
          (⟨h0, ⟨v, (j : Int) - 1⟩, b0, f0, s0⟩ : GroupJoinState α β)).2.hash =
        some (buildInnerHash (some looseEq) ik inner) ∧
      (drain (groupJoinMoveNext ok ik inner) (groupJoinCurrent rs) n
          (⟨h0, ⟨v, (j : Int) - 1⟩, b0, f0, s0⟩ :
            GroupJoinState α β)).2.enumerator =
        (⟨v, (v.length : Int)⟩ : AdapterState α) := by
  intro n
  induction n with
  | zero => intro j hj hn; omega
  | succ n ih =>
    intro j hj hn h0 b0 f0 s0 hh
    have hstep : groupJoinMoveNext ok ik inner
        (⟨h0, ⟨v, (j : Int) - 1⟩, b0, f0, s0⟩ : GroupJoinState α β) =
        groupJoinMoveNextCore ok (buildInnerHash (some looseEq) ik inner)
          (⟨some (buildInnerHash (some looseEq) ik inner),
            ⟨v, (j : Int) - 1⟩, b0, f0, s0⟩ : GroupJoinState α β) := by
      rcases hh with rfl | rfl
      · rfl
      · rfl
    have harith : (j : Int) - 1 + 1 = (j : Int) := by ring
    by_cases hlt : j < v.length
    · have hb : (adapterMoveNext
          (⟨v, (j : Int) - 1⟩ : AdapterState α)).2 = true := by
        simp only [adapterMoveNext, harith, decide_eq_true_eq]
        exact_mod_cast hlt
      have hb1 : (adapterMoveNext
          (⟨v, (j : Int) - 1⟩ : AdapterState α)).1 =
          (⟨v, (j : Int)⟩ : AdapterState α) := by
        simp only [adapterMoveNext]
        rw [harith]
      have hbucket : (if JsHash.keyExists (some looseEq) (fun _ => false)
            (buildInnerHash (some looseEq) ik inner)
            (ok (v.get ⟨j, hlt⟩)) then
          match JsHash.get (some looseEq) (fun _ => false)
              (buildInnerHash (some looseEq) ik inner)
              (ok (v.get ⟨j, hlt⟩)) with
          | .ok l => l
          | .error _ => []
        else []) =
          (match joinLookup looseEq ik inner (ok (v.get ⟨j, hlt⟩)) with
           | some b => b
           | none => []) := by
        rw [buildInnerHash_keyExists_some, buildInnerHash_get_some]
        cases hlk : joinLookup looseEq ik inner (ok (v.get ⟨j, hlt⟩)) with
        | some b => simp [hlk]
        | none => simp [hlk]
      have hcore : groupJoinMoveNextCore ok
          (buildInnerHash (some looseEq) ik inner)
          (⟨some (buildInnerHash (some looseEq) ik inner),
            ⟨v, (j : Int) - 1⟩, b0, f0, s0⟩ : GroupJoinState α β) =
          ((⟨some (buildInnerHash (some looseEq) ik inner),
            ⟨v, (j : Int)⟩, true, v.get ⟨j, hlt⟩,
            (match joinLookup looseEq ik inner (ok (v.get ⟨j, hlt⟩)) with
             | some b => b
             | none => [])⟩ : GroupJoinState α β), true) := by
        unfold groupJoinMoveNextCore
        simp only [hb, if_true, hb1, adapterCurrent_at v j hlt, hbucket]
      have hrec := ih (j + 1) (by omega) (by omega)
        (some (buildInnerHash (some looseEq) ik inner)) true
        (v.get ⟨j, hlt⟩)
        (match joinLookup looseEq ik inner (ok (v.get ⟨j, hlt⟩)) with
         | some b => b
         | none => [])
        (Or.inr rfl)
      have hidx2 : ((j + 1 : Nat) : Int) - 1 = (j : Int) := by
        push_cast
        ring
      rw [hidx2] at hrec
      simp only [drain, hstep, hcore, groupJoinCurrent, if_true]
      have hdropj : v.drop j = v.get ⟨j, hlt⟩ :: v.drop (j + 1) := by
        rw [← List.getElem_cons_drop v j hlt]
        rfl
      rw [hdropj]
      simp only [List.map_cons]
      exact ⟨by rw [hrec.1], hrec.2.1, hrec.2.2⟩
    · have hje : j = v.length := by omega
      subst hje
      have hb : (adapterMoveNext
          (⟨v, (v.length : Int) - 1⟩ : AdapterState α)).2 = false := by
        simp only [adapterMoveNext, decide_eq_false_iff_not]
        intro hcontra
        omega
      have hb1 : (adapterMoveNext
          (⟨v, (v.length : Int) - 1⟩ : AdapterState α)).1 =
          (⟨v, (v.length : Int)⟩ : AdapterState α) := by
        simp only [adapterMoveNext]
        rw [harith]
      have hcore : groupJoinMoveNextCore ok
          (buildInnerHash (some looseEq) ik inner)
          (⟨some (buildInnerHash (some looseEq) ik inner),
            ⟨v, (v.length : Int) - 1⟩, b0, f0, s0⟩ :
            GroupJoinState α β) =
          ((⟨some (buildInnerHash (some looseEq) ik inner),
            ⟨v, (v.length : Int)⟩,
            false, f0, s0⟩ : GroupJoinState α β), false) := by
        unfold groupJoinMoveNextCore
        simp only [hb, Bool.false_eq_true, if_false, hb1]
      simp only [drain, hstep, hcore, Bool.false_eq_true, if_false]
      refine ⟨by rw [List.drop_length]; rfl, trivial, trivial⟩

def groupJoinToArray {α β ρ : Type} [Inhabited α] (ok : α → JSVal)
    (ik : β → JSVal) (rs : α → List β → ρ)
    (outer : List α) (inner : List β) : List ρ :=
  (drain (groupJoinMoveNext ok ik inner) (groupJoinCurrent rs)
    (outer.length + 1) (groupJoinInit outer)).1

/-- Written from the claim: each outer element paired with all inner
    elements whose key loosely matches its own. -/
def groupJoinAllSpec {α β ρ : Type} (ok : α → JSVal) (ik : β → JSVal)
    (rs : α → List β → ρ) (inner : List β) (outer : List α) : List ρ :=
  outer.map fun o => rs o (inner.filter fun i => looseEq (ik i) (ok o))

/-- Counterexample to C6 as stated: with inner keys '01', 1, '1'
    (values a, b, c) and outer key 1, the source pairs the outer
    element with the first matching bucket [a, b], not with all
    loosely-matching inner elements [a, b, c]. -/
theorem c6_counterexample :
    groupJoinToArray (fun o => JSVal.num o) (fun i => i.1)
        (fun _ b => b.map Prod.snd) [(1 : Int)]
        [(JSVal.str "01", "a"), (JSVal.num 1, "b"), (JSVal.str "1", "c")] =
      [["a", "b"]] ∧
    groupJoinAllSpec (fun o => JSVal.num o) (fun i => i.1)
        (fun _ b => b.map Prod.snd)
        [(JSVal.str "01", "a"), (JSVal.num 1, "b"), (JSVal.str "1", "c")]
        [(1 : Int)] =
      [["a", "b", "c"]] ∧
    groupJoinToArray (fun o => JSVal.num o) (fun i => i.1)
        (fun _ b => b.map Prod.snd) [(1 : Int)]
        [(JSVal.str "01", "a"), (JSVal.num 1, "b"), (JSVal.str "1", "c")] ≠
      groupJoinAllSpec (fun o => JSVal.num o) (fun i => i.1)
        (fun _ b => b.map Prod.snd)
        [(JSVal.str "01", "a"), (JSVal.num 1, "b"), (JSVal.str "1", "c")]
        [(1 : Int)] := by
  refine ⟨by decide, by decide, by decide⟩

/-- C6 (amended): groupJoin emits exactly one result per outer element,
    in outer order, pairing each outer element with the first hash
    bucket whose representative key loosely equals the outer key — all
    inner elements that were grouped there — or with the empty list
    when no bucket matches.  On the spec's example (ids [1,2] against
    oids [1,1,3]) this coincides with pairing each outer element with
    all matching inner elements and yields [(1,['a','b']), (2,[])]. -/
theorem c6_groupJoin_semantics :
    (∀ (α β ρ : Type) [Inhabited α] (ok : α → JSVal) (ik : β → JSVal)
       (rs : α → List β → ρ) (outer : List α) (inner : List β),
       groupJoinToArray ok ik rs outer inner =
         outer.map
           (fun o => rs o (match joinLookup looseEq ik inner (ok o) with
             | some b => b
             | none => []))) ∧
    groupJoinToArray (fun o => JSVal.num o) (fun i => JSVal.num i.1)
        (fun o bucket => (o, bucket.map Prod.snd)) [1, 2]
        [(1, "a"), (1, "b"), (3, "c")] =
      [((1 : Int), ["a", "b"]), (2, [])] := by
  have hgen : ∀ (α β ρ : Type) [Inhabited α] (ok : α → JSVal)
      (ik : β → JSVal) (rs : α → List β → ρ)
      (outer : List α) (inner : List β),
      groupJoinToArray ok ik rs outer inner =
        outer.map
          (fun o => rs o (match joinLookup looseEq ik inner (ok o) with
            | some b => b
            | none => [])) := by
    intro α β ρ iA ok ik rs outer inner
    have hinit : (groupJoinInit outer : GroupJoinState α β) =
        (⟨none, ⟨outer, ((0 : Nat) : Int) - 1⟩, false, default, []⟩ :
          GroupJoinState α β) := by
      unfold groupJoinInit adapterInit
      norm_num
    have hrun := groupJoinDrainAux ok ik rs inner outer (outer.length + 1)
      0 (by omega) (by omega) none false default [] (Or.inl rfl)
    unfold groupJoinToArray
    rw [hinit, hrun.1, List.drop_zero]
  refine ⟨hgen, ?_⟩
  rw [hgen]
  decide

/- ----------------------------------------------------------------------
   The distinct enumerator (claim C5).
   moveNext: while (enumerator.moveNext()) {
               if (hash.put(enumerator.current(), true)) { return true; } }
             return false;
   current:  return enumerator.current();
   reset:    enumerator.reset(); hash.empty();
   reset clears the seen-elements hash (Hash.prototype.empty reassigns
   fresh stores), so the buffer is rebuilt during a re-traversal.
   Stored values are the boolean true, never of typeof 'undefined'.
   ---------------------------------------------------------------------- -/

structure DistinctState where
  par : AdapterState JSVal
  hash : HashData Bool

def distinctInit (src : List JSVal) : DistinctState :=
  ⟨adapterInit src, JsHash.emptyHash⟩

def distinctScanAux : Nat → DistinctState → DistinctState × Bool
  | 0, s => (s, false)
  | n + 1, s =>
    if (adapterMoveNext s.par).2 then
      match adapterCurrent (adapterMoveNext s.par).1 with
      | .ok cur =>
        if (JsHash.put none (fun _ => false) s.hash cur true false).1 then
          (⟨(adapterMoveNext s.par).1,
            (JsHash.put none (fun _ => false) s.hash cur true false).2⟩,
            true)
        else
          distinctScanAux n
            ⟨(adapterMoveNext s.par).1,
              (JsHash.put none (fun _ => false) s.hash cur true false).2⟩
      -- unreachable for the adapter source: current() succeeds right
      -- after a successful moveNext
      | .error _ => (⟨(adapterMoveNext s.par).1, s.hash⟩, false)
    else (⟨(adapterMoveNext s.par).1, s.hash⟩, false)

def distinctMoveNext (s : DistinctState) : DistinctState × Bool :=
  distinctScanAux (s.par.value.length + 1) s

def distinctCurrent (s : DistinctState) : Except JsErr JSVal :=
  adapterCurrent s.par

def distinctReset (s : DistinctState) : DistinctState :=
  ⟨adapterReset s.par, JsHash.emptyHash⟩

theorem distinctScanAux_value :
    ∀ (n : Nat) (s : DistinctState),
      ((distinctScanAux n s).1).par.value = s.par.value := by
  intro n
  induction n with
  | zero => intro s; rfl
  | succ n ih =>
    intro s
    unfold distinctScanAux
    by_cases hb : (adapterMoveNext s.par).2
    · rw [if_pos hb]
      cases hc : adapterCurrent (adapterMoveNext s.par).1 with
      | ok cur =>
        by_cases hput :
            (JsHash.put none (fun _ => false) s.hash cur true false).1
        · simp only [hput, if_true]
          rfl
        · simp only [hput, Bool.false_eq_true, if_false]
          rw [ih]
          rfl
      | error e => rfl
    · rw [if_neg hb]
      rfl

/-- C5, the distinct clause: reset returns the distinct enumerator to
    its initial state — rewinding the source and discarding the
    seen-elements hash — so a full re-traversal reproduces the first
    traversal's output exactly, but by recomputing the hash, not by
    reusing it. -/
theorem distinct_reset_replay (src : List JSVal) (n : Nat) :
    distinctReset
        (drain distinctMoveNext distinctCurrent n (distinctInit src)).2 =
      distinctInit src ∧
    drain distinctMoveNext distinctCurrent n
        (distinctReset
          (drain distinctMoveNext distinctCurrent n (distinctInit src)).2) =
      drain distinctMoveNext distinctCurrent n (distinctInit src) := by
  have hval : ((drain distinctMoveNext distinctCurrent n
      (distinctInit src)).2).par.value = src := by
    have := drain_preserves distinctMoveNext distinctCurrent
      (fun s => s.par.value = src)
      (fun s hs => by
        show ((distinctMoveNext s).1).par.value = src
        unfold distinctMoveNext
        rw [distinctScanAux_value]
        exact hs)
      n (distinctInit src) rfl
    exact this
  have hreset : distinctReset
      (drain distinctMoveNext distinctCurrent n (distinctInit src)).2 =
      distinctInit src := by
    rw [show distinctReset
        (drain distinctMoveNext distinctCurrent n (distinctInit src)).2 =
        (⟨⟨(drain distinctMoveNext distinctCurrent n
            (distinctInit src)).2.par.value, -1⟩,
          JsHash.emptyHash⟩ : DistinctState) from rfl, hval]
    rfl
  exact ⟨hreset, by rw [hreset]⟩

/-- Counterexample to C5's buffer-reuse clause: after fully traversing
    distinct over [1, 2], the seen-elements hash holds entries, yet
    reset leaves an empty hash — the buffer is discarded, to be
    recomputed by the next traversal, not reused. -/
theorem c5_counterexample :
    (drain distinctMoveNext distinctCurrent 3
        (distinctInit [JSVal.num 1, JSVal.num 2])).2.hash.primitiveItems ≠
      [] ∧
    (distinctReset
        (drain distinctMoveNext distinctCurrent 3
          (distinctInit [JSVal.num 1, JSVal.num 2])).2).hash.primitiveItems =
      [] := by
  constructor
  · decide
  · rfl

/-- Reset-replay for the lazy-buffer enumerator (orderBy/thenBy and
    reverse): after a full traversal, reset rewinds the buffered adapter
    but keeps the materialised buffer, and a second full traversal
    reproduces the first output. -/
theorem lazyArr_reset_replay {γ : Type} (compute : List γ) (n : Nat)
    (hn : compute.length + 1 ≤ n) :
    (lazyArrReset (drain (lazyArrMoveNext compute) lazyArrCurrent n
        (lazyArrInit : LazyArrState γ)).2).e =
      some (⟨compute, -1⟩ : AdapterState γ) ∧
    (drain (lazyArrMoveNext compute) lazyArrCurrent n
        (lazyArrReset (drain (lazyArrMoveNext compute) lazyArrCurrent n
          (lazyArrInit : LazyArrState γ)).2)).1 =
      (drain (lazyArrMoveNext compute) lazyArrCurrent n
        (lazyArrInit : LazyArrState γ)).1 := by
  rw [lazyArrDrain compute n hn]
  have hres : lazyArrReset
      (⟨some ⟨compute, (compute.length : Int)⟩⟩ : LazyArrState γ) =
      (⟨some ⟨compute, -1⟩⟩ : LazyArrState γ) := rfl
  constructor
  · rw [hres]
  · rw [hres, lazyArrDrain_some]
    have hcast : (⟨compute, -1⟩ : AdapterState γ) =
        ⟨compute, ((0 : Nat) : Int) - 1⟩ := by
      norm_num
    rw [hcast, adapterDrain compute n 0 (by omega) (by omega)]
    simp

/- ----------------------------------------------------------------------
   The groupBy enumerator (claim C5).  lazyInitialize folds the source
   into a Hash of key → array of selected elements and stores
   resultSet = hash.toArray(); the traversal itself is an index walk:
     moveNext: if (resultSet == null) lazyInitialize();
               ++index; return index < resultSet.length;
     current:  if (index < 0 || index >= resultSet.length) throw
               InvalidOperationException; ... return (a view of)
               resultSet[index];
     reset:    index = -1;   -- resultSet is kept.
   The machine is generic in the buffer `compute` (the value resultSet
   receives) and in the view `cur` that current applies to an entry.
   ---------------------------------------------------------------------- -/

structure GroupByState (G : Type) where
  resultSet : Option (List G)
  index : Int

def groupByMoveNext {G : Type} (compute : List G) (s : GroupByState G) :
    GroupByState G × Bool :=
  match s.resultSet with
  | none =>
    (⟨some compute, s.index + 1⟩,
      decide (s.index + 1 < (compute.length : Int)))
  | some rs =>
    (⟨some rs, s.index + 1⟩, decide (s.index + 1 < (rs.length : Int)))

def groupByCurrent {G R : Type} (cur : G → R) (s : GroupByState G) :
    Except JsErr R :=
  match s.resultSet with
  -- reachable only with index < 0, where the || short-circuits into the
  -- InvalidOperationException before touching resultSet.length
  | none => .error .invalidOperation
  | some rs =>
    if 0 ≤ s.index ∧ s.index < (rs.length : Int) then
      match rs[s.index.toNat]? with
      | some g => .ok (cur g)
      | none => .error .invalidOperation
    else .error .invalidOperation

def groupByReset {G : Type} (s : GroupByState G) : GroupByState G :=
  ⟨s.resultSet, -1⟩

theorem groupByCurrent_at {G R : Type} (cur : G → R) (rs : List G)
    (j : Nat) (h : j < rs.length) :
    groupByCurrent cur (⟨some rs, (j : Int)⟩ : GroupByState G) =
      .ok (cur (rs.get ⟨j, h⟩)) := by
  unfold groupByCurrent
  dsimp only
  have hcond : (0 : Int) ≤ (j : Int) ∧ (j : Int) < (rs.length : Int) := by
    constructor
    · exact_mod_cast Nat.zero_le j
    · exact_mod_cast h
  rw [if_pos hcond]
  simp only [Int.toNat_natCast]
  rw [List.getElem?_eq_getElem h]
  simp [List.get_eq_getElem]

theorem groupByDrainAux {G R : Type} (compute : List G) (cur : G → R) :
    ∀ (n j : Nat), j ≤ compute.length → compute.length - j + 1 ≤ n →
      drain (groupByMoveNext compute) (groupByCurrent cur) n
          (⟨some compute, (j : Int) - 1⟩ : GroupByState G) =
        ((compute.drop j).map cur,
          (⟨some compute, (compute.length : Int)⟩ : GroupByState G)) := by
  intro n
  induction n with
  | zero => intro j hj hn; omega
  | succ n ih =>
    intro j hj hn
    simp only [drain, groupByMoveNext]
    have hstep : ((j : Int) - 1 + 1) = (j : Int) := by ring
    simp only [hstep]
    by_cases hlt : j < compute.length
    · have hb : decide ((j : Int) < (compute.length : Int)) = true := by
        simp only [decide_eq_true_eq]
        exact_mod_cast hlt
      simp only [hb, if_true, groupByCurrent_at cur compute j hlt]
      have hrec : (⟨some compute, (j : Int)⟩ : GroupByState G) =
          ⟨some compute, ((j + 1 : Nat) : Int) - 1⟩ := by
        congr 1
        push_cast
        ring
      rw [hrec, ih (j + 1) (by omega) (by omega)]
      simp only [Prod.mk.injEq]
      constructor
      · rw [← List.getElem_cons_drop compute j hlt]
        rfl
      · trivial
    · have hje : j = compute.length := by omega
      have hb : decide ((j : Int) < (compute.length : Int)) = false := by
        simp only [decide_eq_false_iff_not]
        intro hcontra
        exact hlt (by exact_mod_cast hcontra)
      simp only [hb, Bool.false_eq_true, if_false]
      subst hje
      simp [List.drop_length]

theorem groupByDrain_init {G R : Type} (compute : List G) (cur : G → R)
    (n : Nat) :
    drain (groupByMoveNext compute) (groupByCurrent cur) (n + 1)
        (⟨none, -1⟩ : GroupByState G) =
      drain (groupByMoveNext compute) (groupByCurrent cur) (n + 1)
        (⟨some compute, -1⟩ : GroupByState G) := rfl

/-- Reset-replay for join: reset rewinds only the outer enumerator; the
    inner-side hash built by lazyInitialize is kept, and a second full
    traversal reproduces the first output. -/
theorem join_reset_replay {α β ρ : Type} [Inhabited α] [Inhabited β]
    (ok : α → JSVal) (ik : β → JSVal) (rs : α → β → ρ)
    (outer : List α) (inner : List β) :
    (joinReset (drain (joinMoveNext ok ik inner) (joinCurrent rs)
        (outer.length * inner.length + 1) (joinInit outer)).2).hash =
      some (buildInnerHash (some looseEq) ik inner) ∧
    (drain (joinMoveNext ok ik inner) (joinCurrent rs)
        (outer.length * inner.length + 1)
        (joinReset (drain (joinMoveNext ok ik inner) (joinCurrent rs)
          (outer.length * inner.length + 1) (joinInit outer)).2)).1 =
      (drain (joinMoveNext ok ik inner) (joinCurrent rs)
        (outer.length * inner.length + 1) (joinInit outer)).1 := by
  have hlen : (joinPending ok ik rs inner
      (joinInit outer : JoinState α β)).length + 1 ≤
      outer.length * inner.length + 1 := by
    rw [joinPending_init]
    have := joinSpecList_length_le ok ik rs inner outer
    omega
  obtain ⟨hout, hfin⟩ := joinDrain ok ik rs inner
    (outer.length * inner.length + 1) (joinInit outer)
    (joinInit_ok ik inner outer) hlen
  unfold JoinFinal at hfin
  obtain ⟨hhash, hval, hrem, hslcond⟩ := hfin
  rcases hsf : (drain (joinMoveNext ok ik inner) (joinCurrent rs)
      (outer.length * inner.length + 1) (joinInit outer)).2 with
    ⟨h0x, ⟨v0, i0⟩, bx, fx, sx, slx, ix⟩
  rw [hsf] at hhash hval hslcond
  simp only at hhash hslcond
  simp only [joinInit, adapterInit] at hval
  subst hval
  have hOk : JoinOk ik inner
      (joinReset (⟨h0x, ⟨v0, i0⟩, bx, fx, sx, slx, ix⟩ :
        JoinState α β)) := by
    refine ⟨Or.inr hhash, ⟨0, Nat.zero_le _,
      by dsimp only [joinReset, adapterReset]; norm_num⟩, ?_⟩
    intro l hl
    exact (hslcond l hl).2
  have hpend : joinPending ok ik rs inner
      (joinReset (⟨h0x, ⟨v0, i0⟩, bx, fx, sx, slx, ix⟩ :
        JoinState α β)) =
      joinSpecList ok ik rs inner v0 := by
    unfold joinPending
    dsimp only [joinReset, adapterReset]
    have hrem0 : remainingOuter (⟨v0, (-1 : Int)⟩ : AdapterState α) =
        v0 := by
      unfold remainingOuter
      norm_num
    rw [hrem0]
    cases hslx : slx with
    | none => simp
    | some l =>
      obtain ⟨hl1, hl2⟩ := hslcond l hslx
      dsimp only
      rw [if_neg (by omega)]
      simp
  have hlen2 : (joinPending ok ik rs inner
      (joinReset (⟨h0x, ⟨v0, i0⟩, bx, fx, sx, slx, ix⟩ :
        JoinState α β))).length + 1 ≤
      v0.length * inner.length + 1 := by
    rw [hpend]
    have := joinSpecList_length_le ok ik rs inner v0
    omega
  obtain ⟨hout2, _⟩ := joinDrain ok ik rs inner
    (v0.length * inner.length + 1)
    (joinReset (⟨h0x, ⟨v0, i0⟩, bx, fx, sx, slx, ix⟩ : JoinState α β))
    hOk hlen2
  exact ⟨hhash, by rw [hout2, hpend, hout, joinPending_init]⟩

/-- Reset-replay for groupJoin: reset rewinds only the outer
    enumerator; the hash is kept, and a second full traversal
    reproduces the first output. -/
theorem groupJoin_reset_replay {α β ρ : Type} [Inhabited α]
    (ok : α → JSVal) (ik : β → JSVal) (rs : α → List β → ρ)
    (outer : List α) (inner : List β) :
    (groupJoinReset (drain (groupJoinMoveNext ok ik inner)
        (groupJoinCurrent rs) (outer.length + 1)
        (groupJoinInit outer)).2).hash =
      some (buildInnerHash (some looseEq) ik inner) ∧
    (drain (groupJoinMoveNext ok ik inner) (groupJoinCurrent rs)
        (outer.length + 1)
        (groupJoinReset (drain (groupJoinMoveNext ok ik inner)
          (groupJoinCurrent rs) (outer.length + 1)
          (groupJoinInit outer)).2)).1 =
      (drain (groupJoinMoveNext ok ik inner) (groupJoinCurrent rs)
        (outer.length + 1) (groupJoinInit outer)).1 := by
  have hinit : (groupJoinInit outer : GroupJoinState α β) =
      (⟨none, ⟨outer, ((0 : Nat) : Int) - 1⟩, false, default, []⟩ :
        GroupJoinState α β) := by
    unfold groupJoinInit adapterInit
    norm_num
  have hrun := groupJoinDrainAux ok ik rs inner outer (outer.length + 1)
    0 (by omega) (by omega) none false default [] (Or.inl rfl)
  rw [hinit]
  rcases hsf : (drain (groupJoinMoveNext ok ik inner)
      (groupJoinCurrent rs) (outer.length + 1)
      (⟨none, ⟨outer, ((0 : Nat) : Int) - 1⟩, false, default, []⟩ :
        GroupJoinState α β)).2 with ⟨h0x, enx, bx, fx, sx⟩
  rw [hsf] at hrun
  obtain ⟨hout, hhash, henum⟩ := hrun
  simp only at hhash henum
  subst henum
  have hrun2 := groupJoinDrainAux ok ik rs inner outer (outer.length + 1)
    0 (by omega) (by omega) h0x bx fx sx (Or.inr hhash)
  have hresetst : groupJoinReset
      (⟨h0x, ⟨outer, (outer.length : Int)⟩, bx, fx, sx⟩ :
        GroupJoinState α β) =
      (⟨h0x, ⟨outer, ((0 : Nat) : Int) - 1⟩, bx, fx, sx⟩ :
        GroupJoinState α β) := by
    unfold groupJoinReset adapterReset
    norm_num
  refine ⟨hhash, ?_⟩
  rw [hresetst, hrun2.1, hout]

/-- C5 (amended): for orderBy/thenBy, reverse, groupBy, join and
    groupJoin, reset() followed by a full re-traversal reproduces
    exactly the element order of the first traversal, and the
    materialised buffer (the sorted buffer, the reversed array, the
    resultSet, the inner-side hash) survives the reset and is reused.
    distinct also reproduces the element order — reset returns it to
    its initial state — but its seen-elements hash is cleared by reset
    (hash.empty()) and recomputed during the re-traversal, not reused. -/
theorem c5_reset_replay_and_buffers :
    (∀ (α β : Type) [LinearOrder β] (src : List α) (k1 k2 : α → β),
      (lazyArrReset (drain
          (lazyArrMoveNext (orderedCompute (orderByThenBySelectors k1 k2) src))
          lazyArrCurrent (src.length + 1)
          (lazyArrInit : LazyArrState α)).2).e =
        some (⟨orderedCompute (orderByThenBySelectors k1 k2) src, -1⟩ :
          AdapterState α) ∧
      (drain
          (lazyArrMoveNext (orderedCompute (orderByThenBySelectors k1 k2) src))
          lazyArrCurrent (src.length + 1)
          (lazyArrReset (drain
            (lazyArrMoveNext
              (orderedCompute (orderByThenBySelectors k1 k2) src))
            lazyArrCurrent (src.length + 1)
            (lazyArrInit : LazyArrState α)).2)).1 =
        (drain
          (lazyArrMoveNext (orderedCompute (orderByThenBySelectors k1 k2) src))
          lazyArrCurrent (src.length + 1)
          (lazyArrInit : LazyArrState α)).1) ∧
    (∀ (γ : Type) (src : List γ),
      (lazyArrReset (drain (lazyArrMoveNext src.reverse) lazyArrCurrent
          (src.length + 1) (lazyArrInit : LazyArrState γ)).2).e =
        some (⟨src.reverse, -1⟩ : AdapterState γ) ∧
      (drain (lazyArrMoveNext src.reverse) lazyArrCurrent (src.length + 1)
          (lazyArrReset (drain (lazyArrMoveNext src.reverse) lazyArrCurrent
            (src.length + 1) (lazyArrInit : LazyArrState γ)).2)).1 =
        (drain (lazyArrMoveNext src.reverse) lazyArrCurrent (src.length + 1)
          (lazyArrInit : LazyArrState γ)).1) ∧
    (∀ (G R : Type) (compute : List G) (cur : G → R),
      (groupByReset (drain (groupByMoveNext compute) (groupByCurrent cur)
          (compute.length + 1) (⟨none, -1⟩ : GroupByState G)).2).resultSet =
        some compute ∧
      (drain (groupByMoveNext compute) (groupByCurrent cur)
          (compute.length + 1)
          (groupByReset (drain (groupByMoveNext compute)
            (groupByCurrent cur) (compute.length + 1)
            (⟨none, -1⟩ : GroupByState G)).2)).1 =
        (drain (groupByMoveNext compute) (groupByCurrent cur)
          (compute.length + 1) (⟨none, -1⟩ : GroupByState G)).1) ∧
    (∀ (α β ρ : Type) [Inhabited α] [Inhabited β] (ok : α → JSVal)
       (ik : β → JSVal) (rs : α → β → ρ) (outer : List α)
       (inner : List β),
      (joinReset (drain (joinMoveNext ok ik inner) (joinCurrent rs)
          (outer.length * inner.length + 1) (joinInit outer)).2).hash =
        some (buildInnerHash (some looseEq) ik inner) ∧
      (drain (joinMoveNext ok ik inner) (joinCurrent rs)
          (outer.length * inner.length + 1)
          (joinReset (drain (joinMoveNext ok ik inner) (joinCurrent rs)
            (outer.length * inner.length + 1) (joinInit outer)).2)).1 =
        (drain (joinMoveNext ok ik inner) (joinCurrent rs)
          (outer.length * inner.length + 1) (joinInit outer)).1) ∧
    (∀ (α β ρ : Type) [Inhabited α] (ok : α → JSVal) (ik : β → JSVal)
       (rs : α → List β → ρ) (outer : List α) (inner : List β),
      (groupJoinReset (drain (groupJoinMoveNext ok ik inner)
          (groupJoinCurrent rs) (outer.length + 1)
          (groupJoinInit outer)).2).hash =
        some (buildInnerHash (some looseEq) ik inner) ∧
      (drain (groupJoinMoveNext ok ik inner) (groupJoinCurrent rs)
          (outer.length + 1)
          (groupJoinReset (drain (groupJoinMoveNext ok ik inner)
            (groupJoinCurrent rs) (outer.length + 1)
            (groupJoinInit outer)).2)).1 =
        (drain (groupJoinMoveNext ok ik inner) (groupJoinCurrent rs)
          (outer.length + 1) (groupJoinInit outer)).1) ∧
    (∀ (src : List JSVal) (n : Nat),
      distinctReset
          (drain distinctMoveNext distinctCurrent n (distinctInit src)).2 =
        distinctInit src ∧
      drain distinctMoveNext distinctCurrent n
          (distinctReset (drain distinctMoveNext distinctCurrent n
            (distinctInit src)).2) =
        drain distinctMoveNext distinctCurrent n (distinctInit src)) := by
  refine ⟨?_, ?_, ?_, ?_, ?_, ?_⟩
  · intro α β iLO src k1 k2
    exact lazyArr_reset_replay (orderedCompute (orderByThenBySelectors k1 k2) src)
      (src.length + 1)
      (by unfold orderedCompute; rw [jsSort_length])
  · intro γ src
    exact lazyArr_reset_replay src.reverse (src.length + 1)
      (by rw [List.length_reverse])
  · intro G R compute cur
    have h1 := groupByDrain_init compute cur compute.length
    have hcast : (⟨some compute, -1⟩ : GroupByState G) =
        ⟨some compute, ((0 : Nat) : Int) - 1⟩ := by norm_num
    have h2 := groupByDrainAux compute cur (compute.length + 1) 0
      (by omega) (by omega)
    have hres : groupByReset
        (⟨some compute, (compute.length : Int)⟩ : GroupByState G) =
        (⟨some compute, ((0 : Nat) : Int) - 1⟩ : GroupByState G) := by
      unfold groupByReset
      norm_num
    rw [h1, hcast, h2]
    exact ⟨rfl, by rw [hres, h2]⟩
  · intro α β ρ iA iB ok ik rs outer inner
    exact join_reset_replay ok ik rs outer inner
  · intro α β ρ iA ok ik rs outer inner
    exact groupJoin_reset_replay ok ik rs outer inner
  · intro src n
    exact distinct_reset_replay src n
